import Mathlib

/-!
# A shallow embedding of the `xml_writer` streaming XML serializer

This file embeds the Rust module `src/xml_writer.rs` (the `XmlWriter`
struct and its methods) into Lean and proves the testable properties of
its specification.

Modelling choices:
* The output sink (`writer: Box<W>` where `W: io::Write`) is modelled by
  `Sink`: a list of chunks written so far (each sink `write` call appends
  exactly one chunk) together with a `budget`: `none` means every write
  succeeds, `some n` means the next `n` writes succeed and the one after
  them fails with an I/O error (writing nothing).
* Strings are Lean `String`s (sequences of unicode scalar values); a raw
  byte-level model is not needed because the Rust code only ever splits
  text at `char` boundaries (`text.chars()` / `encode_utf8`).
* A method returning `io::Result<()>` is modelled as a function
  `XmlWriter → XRes`: `.ok x` is success, `.ioErr x` is an `Err` return
  (the Rust caller still holds the writer, whose state is `x`), and
  `.panicked x` models a `panic!`/`expect` abort (the state `x` records
  what had been written to the sink before the abort).
-/

/-- The output sink: the chunks accepted so far, and how many more
writes succeed (`none` = all of them). -/
structure Sink where
  chunks : List String
  budget : Option Nat
deriving DecidableEq, Repr

/-- The XmlWriter himself (fields as in the Rust struct; `writer` is the
owned sink). -/
structure XmlWriter where
  stack : List String
  ns_stack : List (Option String)
  writer : Sink
  opened : Bool
  pretty : Bool
  «namespace» : Option String
deriving DecidableEq, Repr

/-- Outcome of one writer method: success, an I/O error returned to the
caller, or a panic (programmer-misuse fault). In each case the writer
state reached so far is recorded. -/
inductive XRes where
  | ok (x : XmlWriter)
  | ioErr (x : XmlWriter)
  | panicked (x : XmlWriter)
deriving DecidableEq, Repr

/-- Sequencing of fallible steps, as Rust's `try!`: an `Err` or a panic
short-circuits. -/
def XRes.andThen (r : XRes) (f : XmlWriter → XRes) : XRes :=
  match r with
  | .ok x => f x
  | .ioErr x => .ioErr x
  | .panicked x => .panicked x

namespace XmlWriter

/-- `XmlWriter::new`: fresh writer over a given sink, pretty mode on, no
namespace. -/
def new (w : Sink) : XmlWriter :=
  { stack := [], ns_stack := [], writer := w, opened := false,
    pretty := true, «namespace» := none }

/-- `XmlWriter::write`: raw write of one chunk to the sink (public in the
Rust code; also the primitive every other method uses). -/
def write (t : String) (x : XmlWriter) : XRes :=
  match x.writer.budget with
  | none => .ok { x with writer := { chunks := x.writer.chunks ++ [t], budget := none } }
  | some 0 => .ioErr x
  | some (n + 1) => .ok { x with writer := { chunks := x.writer.chunks ++ [t], budget := some n } }

/-- The space-writing loop of `indent` (`for _ in 0..indent { write(" ") }`). -/
def writeSpaces : Nat → XmlWriter → XRes
  | 0, x => .ok x
  | n + 1, x => (write " " x).andThen (writeSpaces n)

/-- `XmlWriter::indent`: newline plus `2 × depth` spaces, only in pretty
mode and only at depth > 0. -/
def indent (x : XmlWriter) : XRes :=
  if x.pretty then
    if x.stack.length > 0 then
      (write "\n" x).andThen (fun y => writeSpaces (y.stack.length * 2) y)
    else .ok x
  else .ok x

/-- `XmlWriter::ns_prefix`: write `ns:` when a prefix is given. -/
def ns_prefix (ns : Option String) (x : XmlWriter) : XRes :=
  match ns with
  | some n => (write n x).andThen (write ":")
  | none => .ok x

/-- `XmlWriter::close_elem`: terminate a pending open tag with `>` (the
Rust code writes `">"` in both branches of its `pretty` test). -/
def close_elem (x : XmlWriter) : XRes :=
  if x.opened then
    (if x.pretty then write ">" x else write ">" x).andThen
      (fun y => .ok { y with opened := false })
  else .ok x

/-- One character's expansion in `XmlWriter::escape`. -/
def escChar (ident : Bool) (c : Char) : String :=
  if c = Char.ofNat 34 then "&quot;"
  else if c = Char.ofNat 39 then "&apos;"
  else if c = Char.ofNat 38 then "&amp;"
  else if c = Char.ofNat 60 then "&lt;"
  else if c = Char.ofNat 62 then "&gt;"
  else if c = Char.ofNat 92 && ident then "\\\\"
  else String.singleton c

/-- The character loop of `XmlWriter::escape`. -/
def escapeChars : List Char → Bool → XmlWriter → XRes
  | [], _, x => .ok x
  | c :: cs, ident, x => (write (escChar ident c) x).andThen (escapeChars cs ident)

/-- `XmlWriter::escape`: escape identifiers or text. -/
def escape (text : String) (ident : Bool) (x : XmlWriter) : XRes :=
  escapeChars text.data ident x

/-- `XmlWriter::dtd`. -/
def dtd (encoding : String) (x : XmlWriter) : XRes :=
  (write "<?xml version=\"1.0\" encoding=\"" x).andThen fun x =>
  (write encoding x).andThen fun x =>
  write "\" ?>\n" x

/-- `XmlWriter::elem`: a self-closing element. -/
def elem (name : String) (x : XmlWriter) : XRes :=
  (close_elem x).andThen fun x =>
  (indent x).andThen fun x =>
  (write "<" x).andThen fun x =>
  ( ns_prefix x.«namespace» x).andThen fun x =>
  (write name x).andThen fun x =>
  write "/>" x

/-- `XmlWriter::elem_text`: an element with inlined (escaped) text. -/
def elem_text (name : String) (text : String) (x : XmlWriter) : XRes :=
  (close_elem x).andThen fun x =>
  (indent x).andThen fun x =>
  (write "<" x).andThen fun x =>
  ( ns_prefix x.«namespace» x).andThen fun x =>
  (write name x).andThen fun x =>
  (write ">" x).andThen fun x =>
  (escape text false x).andThen fun x =>
  (write "</" x).andThen fun x =>
  (write name x).andThen fun x =>
  write ">" x

/-- `XmlWriter::begin_elem`: pushes the name and the current namespace
onto the two stacks, then writes the (unterminated) start tag. -/
def begin_elem (name : String) (x : XmlWriter) : XRes :=
  (close_elem x).andThen fun x =>
  (indent x).andThen fun x =>
  (write "<"
      { x with stack := name :: x.stack,
               ns_stack := x.«namespace» :: x.ns_stack }).andThen fun x =>
  ( ns_prefix x.«namespace» { x with opened := true }).andThen fun x =>
  write name x

/-- `XmlWriter::end_elem`: terminate any open tag, pop both stacks
(panicking when empty), write the closing tag with the popped prefix. -/
def end_elem (x : XmlWriter) : XRes :=
  (close_elem x).andThen fun x =>
  match x.ns_stack with
  | [] => .panicked x
  | ns :: nsRest =>
    match x.stack with
    | [] => .panicked { x with ns_stack := nsRest }
    | name :: sRest =>
      (write "</" { x with ns_stack := nsRest, stack := sRest }).andThen fun x =>
      ( ns_prefix ns x).andThen fun x =>
      (write name x).andThen fun x =>
      (if x.pretty then write ">" x else write ">" x)

/-- `XmlWriter::empty_elem` (same body as `elem`). -/
def empty_elem (name : String) (x : XmlWriter) : XRes :=
  (close_elem x).andThen fun x =>
  (indent x).andThen fun x =>
  (write "<" x).andThen fun x =>
  ( ns_prefix x.«namespace» x).andThen fun x =>
  (write name x).andThen fun x =>
  write "/>" x

/-- `XmlWriter::attr`: raw attribute; panics when no element is open. -/
def attr (name : String) (value : String) (x : XmlWriter) : XRes :=
  if !x.opened then .panicked x
  else
    (write " " x).andThen fun x =>
    (write name x).andThen fun x =>
    (write "=\"" x).andThen fun x =>
    (write value x).andThen fun x =>
    write "\"" x

/-- `XmlWriter::attr_esc`: escaped attribute (name in identifier mode,
value as text); panics when no element is open. -/
def attr_esc (name : String) (value : String) (x : XmlWriter) : XRes :=
  if !x.opened then .panicked x
  else
    (write " " x).andThen fun x =>
    (escape name true x).andThen fun x =>
    (write "=\"" x).andThen fun x =>
    (escape value false x).andThen fun x =>
    write "\"" x

/-- `XmlWriter::text`: terminate a pending open tag, then escaped text. -/
def text (t : String) (x : XmlWriter) : XRes :=
  (close_elem x).andThen (escape t false)

/-- `XmlWriter::cdata`: terminate a pending open tag, then the raw CDATA
section (not escaped). -/
def cdata (c : String) (x : XmlWriter) : XRes :=
  (close_elem x).andThen fun x =>
  (write "<![CDATA[" x).andThen fun x =>
  (write c x).andThen fun x =>
  write "]]>" x

/-- `XmlWriter::comment`. -/
def comment (c : String) (x : XmlWriter) : XRes :=
  (close_elem x).andThen fun x =>
  (indent x).andThen fun x =>
  (write "<!-- " x).andThen fun x =>
  (escape c false x).andThen fun x =>
  write " -->" x

/-- The loop of `XmlWriter::ns_decl` over the namespace map. -/
def ns_declLoop : List (Option String × String) → XmlWriter → XRes
  | [], x => .ok x
  | (pre, uri) :: rest, x =>
    (attr (match pre with | some p => "xmlns:" ++ p | none => "xmlns") uri x).andThen
      ( ns_declLoop rest)

/-- `XmlWriter::ns_decl`: namespace declarations via the raw `attr`
path; panics when no element is open. -/
def ns_decl (nsMap : List (Option String × String)) (x : XmlWriter) : XRes :=
  if !x.opened then .panicked x
  else ns_declLoop nsMap x

/-- The loop of `XmlWriter::close` (`for _ in 0..self.stack.len()`): the
iteration count is the stack length at entry. -/
def closeLoop : Nat → XmlWriter → XRes
  | 0, x => .ok x
  | n + 1, x => (end_elem x).andThen (closeLoop n)

/-- `XmlWriter::close`: close all open elements. -/
def close (x : XmlWriter) : XRes :=
  closeLoop x.stack.length x

/-- `XmlWriter::flush`: delegates to the sink; succeeds unless the sink
is in its failing state. -/
def flush (x : XmlWriter) : XRes :=
  match x.writer.budget with
  | some 0 => .ioErr x
  | _ => .ok x

end XmlWriter

/-- The concatenated bytes a result's sink holds, when the writer did
not panic. -/
def XRes.out : XRes → Option String
  | .ok x => some (String.join x.writer.chunks)
  | .ioErr x => some (String.join x.writer.chunks)
  | .panicked _ => none

/-- `P` holds of the writer state surviving the outcome: the state a
caller can still observe after success or an I/O error (a panic aborts
the process, so nothing survives it). -/
def XRes.Holds (P : XmlWriter → Prop) : XRes → Prop
  | .ok x => P x
  | .ioErr x => P x
  | .panicked _ => True

namespace XmlWriter

/-! ## Pure descriptions of what each helper emits (sink chunks) -/

/-- Chunks `close_elem` emits. -/
def closeChunks (x : XmlWriter) : List String :=
  if x.opened then [">"] else []

/-- Chunks `indent` emits. -/
def indentChunks (x : XmlWriter) : List String :=
  if x.pretty then
    if x.stack.length > 0 then "\n" :: List.replicate (x.stack.length * 2) " "
    else []
  else []

/-- Chunks ` ns_prefix` emits. -/
def nsChunks : Option String → List String
  | some n => [n, ":"]
  | none => []

/-- The pure escaping transform (the string `escape` sends to the sink). -/
def escapeStr (text : String) (ident : Bool) : String :=
  String.join (text.data.map (escChar ident))

/-- The entity the spec's escaping table assigns to a special character
(none for ordinary characters). -/
def entityFor (c : Char) : Option String :=
  if c = Char.ofNat 34 then some "&quot;"
  else if c = Char.ofNat 39 then some "&apos;"
  else if c = Char.ofNat 38 then some "&amp;"
  else if c = Char.ofNat 60 then some "&lt;"
  else if c = Char.ofNat 62 then some "&gt;"
  else none

/-- The five entities the escaper can emit. -/
def entityList : List String := ["&quot;", "&apos;", "&amp;", "&lt;", "&gt;"]

/-- The closing tags `close` emits for the given (stack, ns_stack)
frames, topmost first. -/
def closingChunks : List (String × Option String) → List String
  | [] => []
  | (name, ns) :: rest => ["</"] ++ nsChunks ns ++ [name, ">"] ++ closingChunks rest

/-- The public operations of the writer, as data (used to state
invariants quantified over "every public operation"). -/
inductive Op where
  | dtd (encoding : String)
  | ns_decl (nsMap : List (Option String × String))
  | elem (name : String)
  | elem_text (name text : String)
  | begin_elem (name : String)
  | end_elem
  | empty_elem (name : String)
  | attr (name value : String)
  | attr_esc (name value : String)
  | text (t : String)
  | write (t : String)
  | cdata (c : String)
  | comment (c : String)
  | close
  | flush
deriving DecidableEq, Repr

/-- Run one public operation. -/
def Op.apply : Op → XmlWriter → XRes
  | .dtd encoding, x => XmlWriter.dtd encoding x
  | .ns_decl nsMap, x => XmlWriter.ns_decl nsMap x
  | .elem name, x => XmlWriter.elem name x
  | .elem_text name t, x => XmlWriter.elem_text name t x
  | .begin_elem name, x => XmlWriter.begin_elem name x
  | .end_elem, x => XmlWriter.end_elem x
  | .empty_elem name, x => XmlWriter.empty_elem name x
  | .attr name value, x => XmlWriter.attr name value x
  | .attr_esc name value, x => XmlWriter.attr_esc name value x
  | .text t, x => XmlWriter.text t x
  | .write t, x => XmlWriter.write t x
  | .cdata c, x => XmlWriter.cdata c x
  | .comment c, x => XmlWriter.comment c x
  | .close, x => XmlWriter.close x
  | .flush, x => XmlWriter.flush x

/-- Run a list of public operations in order. -/
def runOps : List Op → XmlWriter → XRes
  | [], x => .ok x
  | op :: ops, x => (Op.apply op x).andThen (runOps ops)

/-- The writer states a caller can actually hold: a fresh writer, any
state after mutating the public `pretty` / `namespace` fields, and any
state surviving a public operation (returned by value on success or
still held by the caller after an I/O error; a panic aborts). -/
inductive Reachable : XmlWriter → Prop where
  | fresh (w : Sink) : Reachable (new w)
  | set_ns (x : XmlWriter) (ns : Option String) :
      Reachable x → Reachable { x with «namespace» := ns }
  | set_pretty (x : XmlWriter) (b : Bool) :
      Reachable x → Reachable { x with pretty := b }
  | step_ok (x y : XmlWriter) (op : Op) :
      Reachable x → op.apply x = .ok y → Reachable y
  | step_io (x y : XmlWriter) (op : Op) :
      Reachable x → op.apply x = .ioErr y → Reachable y

/-- Is this operation a `begin_elem` or `end_elem`? -/
def Op.isBeginEnd : Op → Bool
  | .begin_elem _ => true
  | .end_elem => true
  | _ => false

/-- Does this operation modify the element/namespace stacks? Only
`begin_elem`, `end_elem` and `close` (which is iterated `end_elem`)
do. -/
def Op.touchesStack : Op → Bool
  | .begin_elem _ => true
  | .end_elem => true
  | .close => true
  | _ => false

/-- "No mismatches": scanning the operation list with a running depth,
an `end_elem` never occurs at depth zero (never more `end_elem` than
unmatched `begin_elem`). -/
def balancedFrom : Nat → List Op → Bool
  | _, [] => true
  | d, .begin_elem _ :: ops => balancedFrom (d + 1) ops
  | d, .end_elem :: ops => decide (d > 0) && balancedFrom (d - 1) ops
  | d, _ :: ops => balancedFrom d ops

/-- Stack simulation of a `begin_elem`/`end_elem` sequence. -/
def simStack : List Op → List String → List String
  | [], st => st
  | .begin_elem nm :: ops, st => simStack ops (nm :: st)
  | .end_elem :: ops, st => simStack ops st.tail
  | _ :: ops, st => simStack ops st

/-- The closing-tag names a `begin_elem`/`end_elem` sequence emits, in
order: each `end_elem` closes the most recently opened unclosed
element. -/
def simClosings : List Op → List String → List String
  | [], _ => []
  | .begin_elem nm :: ops, st => simClosings ops (nm :: st)
  | .end_elem :: ops, st => st.headD "" :: simClosings ops st.tail
  | _ :: ops, st => simClosings ops st

/-- The closing-tag names readable off a chunk stream: the chunk
following each `</` chunk. -/
def closingNames : List String → List String
  | [] => []
  | [_] => []
  | c :: nm :: r =>
    if c = "</" then nm :: closingNames r else closingNames (nm :: r)

/-- A chunk list is self-contained for `closingNames`: appending more
chunks cannot reinterpret it (no trailing dangling `</`). -/
def NoDangle (cs : List String) : Prop :=
  ∀ b, closingNames (cs ++ b) = closingNames cs ++ closingNames b

/-! ## Characterization of each operation over a never-failing sink -/

theorem write_none (t : String) (x : XmlWriter) (h : x.writer.budget = none) :
    write t x = .ok { x with writer := { chunks := x.writer.chunks ++ [t], budget := none } } := by
  unfold write
  rw [h]

theorem writeSpaces_none (n : Nat) (x : XmlWriter) (h : x.writer.budget = none) :
    writeSpaces n x =
      .ok { x with writer := { chunks := x.writer.chunks ++ List.replicate n " ", budget := none } } := by
  induction n generalizing x with
  | zero =>
    simp only [writeSpaces, List.replicate, List.append_nil]
    rw [← h]
  | succ n ih =>
    rw [writeSpaces, write_none _ _ h, XRes.andThen, ih]
    · simp [List.replicate_succ]
    · rfl

theorem indent_none (x : XmlWriter) (h : x.writer.budget = none) :
    indent x =
      .ok { x with writer := { chunks := x.writer.chunks ++ indentChunks x, budget := none } } := by
  unfold indent indentChunks
  by_cases hp : x.pretty
  · by_cases hs : x.stack.length > 0
    · rw [if_pos hp, if_pos hs, if_pos hp, if_pos hs, write_none _ _ h, XRes.andThen]
      rw [writeSpaces_none _ _ rfl]
      simp
    · rw [if_pos hp, if_neg hs, if_pos hp, if_neg hs]
      simp only [List.append_nil]
      rw [← h]
  · rw [if_neg hp, if_neg hp]
    simp only [List.append_nil]
    rw [← h]

theorem ns_prefix_none (ns : Option String) (x : XmlWriter) (h : x.writer.budget = none) :
    ns_prefix ns x =
      .ok { x with writer := { chunks := x.writer.chunks ++ nsChunks ns, budget := none } } := by
  cases ns with
  | none =>
    simp only [ ns_prefix, nsChunks, List.append_nil]
    rw [← h]
  | some n =>
    simp only [ ns_prefix, nsChunks]
    rw [write_none _ _ h, XRes.andThen, write_none _ _ rfl]
    simp

theorem close_elem_none (x : XmlWriter) (h : x.writer.budget = none) :
    close_elem x =
      .ok { x with opened := false,
                   writer := { chunks := x.writer.chunks ++ closeChunks x, budget := none } } := by
  unfold close_elem closeChunks
  by_cases ho : x.opened = true
  · rw [if_pos ho, if_pos ho, ite_self, write_none _ _ h, XRes.andThen]
  · rw [if_neg ho, if_neg ho]
    simp only [List.append_nil]
    rw [← h]
    simp only [Bool.not_eq_true] at ho
    rw [← ho]

theorem escapeChars_none (cs : List Char) (ident : Bool) (x : XmlWriter)
    (h : x.writer.budget = none) :
    escapeChars cs ident x =
      .ok { x with writer := { chunks := x.writer.chunks ++ cs.map (escChar ident),
                               budget := none } } := by
  induction cs generalizing x with
  | nil =>
    simp only [escapeChars, List.map_nil, List.append_nil]
    rw [← h]
  | cons c cs ih =>
    rw [escapeChars, write_none _ _ h, XRes.andThen, ih _ rfl]
    simp

theorem escape_none (t : String) (ident : Bool) (x : XmlWriter)
    (h : x.writer.budget = none) :
    escape t ident x =
      .ok { x with writer := { chunks := x.writer.chunks ++ t.data.map (escChar ident),
                               budget := none } } :=
  escapeChars_none t.data ident x h

theorem text_none (t : String) (x : XmlWriter) (h : x.writer.budget = none) :
    text t x =
      .ok { x with opened := false,
                   writer := { chunks := x.writer.chunks ++ closeChunks x
                                 ++ t.data.map (escChar false),
                               budget := none } } := by
  unfold text
  rw [close_elem_none _ h]
  simp only [XRes.andThen]
  rw [escape_none _ _ _ rfl]

theorem cdata_none (c : String) (x : XmlWriter) (h : x.writer.budget = none) :
    cdata c x =
      .ok { x with opened := false,
                   writer := { chunks := x.writer.chunks ++ closeChunks x
                                 ++ ["<![CDATA[", c, "]]>"],
                               budget := none } } := by
  unfold cdata
  rw [close_elem_none _ h]
  simp only [XRes.andThen]
  rw [write_none _ _ rfl]
  simp only [XRes.andThen]
  rw [write_none _ _ rfl]
  simp only [XRes.andThen]
  rw [write_none _ _ rfl]
  simp

theorem comment_none (c : String) (x : XmlWriter) (h : x.writer.budget = none) :
    comment c x =
      .ok { x with opened := false,
                   writer := { chunks := x.writer.chunks ++ closeChunks x
                                 ++ indentChunks x
                                 ++ ["<!-- "] ++ c.data.map (escChar false) ++ [" -->"],
                               budget := none } } := by
  unfold comment
  rw [close_elem_none _ h]
  simp only [XRes.andThen]
  rw [indent_none _ rfl]
  simp only [XRes.andThen]
  rw [write_none _ _ rfl]
  simp only [XRes.andThen]
  rw [escape_none _ _ _ rfl]
  simp only [XRes.andThen]
  rw [write_none _ _ rfl]
  simp [indentChunks]

theorem begin_elem_none (name : String) (x : XmlWriter) (h : x.writer.budget = none) :
    begin_elem name x =
      .ok { x with stack := name :: x.stack,
                   ns_stack := x.«namespace» :: x.ns_stack,
                   opened := true,
                   writer := { chunks := x.writer.chunks ++ closeChunks x
                                 ++ indentChunks x
                                 ++ ["<"] ++ nsChunks x.«namespace» ++ [name],
                               budget := none } } := by
  unfold begin_elem
  rw [close_elem_none _ h]
  simp only [XRes.andThen]
  rw [indent_none _ rfl]
  simp only [XRes.andThen]
  rw [write_none _ _ rfl]
  simp only [XRes.andThen]
  rw [ ns_prefix_none _ _ rfl]
  simp only [XRes.andThen]
  rw [write_none _ _ rfl]
  simp [indentChunks]

theorem end_elem_none (x : XmlWriter) (name : String) (sRest : List String)
    (ns : Option String) (nsRest : List (Option String))
    (h : x.writer.budget = none)
    (hs : x.stack = name :: sRest) (hn : x.ns_stack = ns :: nsRest) :
    end_elem x =
      .ok { x with stack := sRest, ns_stack := nsRest, opened := false,
                   writer := { chunks := x.writer.chunks ++ closeChunks x
                                 ++ ["</"] ++ nsChunks ns ++ [name, ">"],
                               budget := none } } := by
  unfold end_elem
  rw [close_elem_none _ h]
  simp only [XRes.andThen, hn, hs]
  rw [write_none _ _ rfl]
  simp only [XRes.andThen]
  rw [ ns_prefix_none _ _ rfl]
  simp only [XRes.andThen]
  rw [write_none _ _ rfl]
  simp only [XRes.andThen, ite_self]
  rw [write_none _ _ rfl]
  simp

theorem attr_panic (name value : String) (x : XmlWriter) (ho : x.opened = false) :
    attr name value x = .panicked x := by
  unfold attr
  rw [ho]
  rfl

theorem attr_none (name value : String) (x : XmlWriter)
    (h : x.writer.budget = none) (ho : x.opened = true) :
    attr name value x =
      .ok { x with writer := { chunks := x.writer.chunks
                                 ++ [" ", name, "=\"", value, "\""],
                               budget := none } } := by
  unfold attr
  rw [if_neg (by simp [ho])]
  rw [write_none _ _ h]
  simp only [XRes.andThen]
  rw [write_none _ _ rfl]
  simp only [XRes.andThen]
  rw [write_none _ _ rfl]
  simp only [XRes.andThen]
  rw [write_none _ _ rfl]
  simp only [XRes.andThen]
  rw [write_none _ _ rfl]
  simp

theorem attr_esc_panic (name value : String) (x : XmlWriter) (ho : x.opened = false) :
    attr_esc name value x = .panicked x := by
  unfold attr_esc
  rw [ho]
  rfl

theorem attr_esc_none (name value : String) (x : XmlWriter)
    (h : x.writer.budget = none) (ho : x.opened = true) :
    attr_esc name value x =
      .ok { x with writer := { chunks := x.writer.chunks
                                 ++ [" "] ++ name.data.map (escChar true)
                                 ++ ["=\""] ++ value.data.map (escChar false) ++ ["\""],
                               budget := none } } := by
  unfold attr_esc
  rw [if_neg (by simp [ho])]
  rw [write_none _ _ h]
  simp only [XRes.andThen]
  rw [escape_none _ _ _ rfl]
  simp only [XRes.andThen]
  rw [write_none _ _ rfl]
  simp only [XRes.andThen]
  rw [escape_none _ _ _ rfl]
  simp only [XRes.andThen]
  rw [write_none _ _ rfl]

theorem elem_text_none (name t : String) (x : XmlWriter) (h : x.writer.budget = none) :
    elem_text name t x =
      .ok { x with opened := false,
                   writer := { chunks := x.writer.chunks ++ closeChunks x
                                 ++ indentChunks x
                                 ++ ["<"] ++ nsChunks x.«namespace» ++ [name, ">"]
                                 ++ t.data.map (escChar false)
                                 ++ ["</", name, ">"],
                               budget := none } } := by
  unfold elem_text
  rw [close_elem_none _ h]
  simp only [XRes.andThen]
  rw [indent_none _ rfl]
  simp only [XRes.andThen]
  rw [write_none _ _ rfl]
  simp only [XRes.andThen]
  rw [ ns_prefix_none _ _ rfl]
  simp only [XRes.andThen]
  rw [write_none _ _ rfl]
  simp only [XRes.andThen]
  rw [write_none _ _ rfl]
  simp only [XRes.andThen]
  rw [escape_none _ _ _ rfl]
  simp only [XRes.andThen]
  rw [write_none _ _ rfl]
  simp only [XRes.andThen]
  rw [write_none _ _ rfl]
  simp only [XRes.andThen]
  rw [write_none _ _ rfl]
  simp [indentChunks]

theorem elem_none (name : String) (x : XmlWriter) (h : x.writer.budget = none) :
    elem name x =
      .ok { x with opened := false,
                   writer := { chunks := x.writer.chunks ++ closeChunks x
                                 ++ indentChunks x
                                 ++ ["<"] ++ nsChunks x.«namespace» ++ [name, "/>"],
                               budget := none } } := by
  unfold elem
  rw [close_elem_none _ h]
  simp only [XRes.andThen]
  rw [indent_none _ rfl]
  simp only [XRes.andThen]
  rw [write_none _ _ rfl]
  simp only [XRes.andThen]
  rw [ ns_prefix_none _ _ rfl]
  simp only [XRes.andThen]
  rw [write_none _ _ rfl]
  simp only [XRes.andThen]
  rw [write_none _ _ rfl]
  simp [indentChunks]

theorem empty_elem_none (name : String) (x : XmlWriter) (h : x.writer.budget = none) :
    empty_elem name x =
      .ok { x with opened := false,
                   writer := { chunks := x.writer.chunks ++ closeChunks x
                                 ++ indentChunks x
                                 ++ ["<"] ++ nsChunks x.«namespace» ++ [name, "/>"],
                               budget := none } } := by
  unfold empty_elem
  rw [close_elem_none _ h]
  simp only [XRes.andThen]
  rw [indent_none _ rfl]
  simp only [XRes.andThen]
  rw [write_none _ _ rfl]
  simp only [XRes.andThen]
  rw [ ns_prefix_none _ _ rfl]
  simp only [XRes.andThen]
  rw [write_none _ _ rfl]
  simp only [XRes.andThen]
  rw [write_none _ _ rfl]
  simp [indentChunks]

theorem dtd_none (encoding : String) (x : XmlWriter) (h : x.writer.budget = none) :
    dtd encoding x =
      .ok { x with writer := { chunks := x.writer.chunks
                                 ++ ["<?xml version=\"1.0\" encoding=\"", encoding, "\" ?>\n"],
                               budget := none } } := by
  unfold dtd
  rw [write_none _ _ h]
  simp only [XRes.andThen]
  rw [write_none _ _ rfl]
  simp only [XRes.andThen]
  rw [write_none _ _ rfl]
  simp

theorem flush_none (x : XmlWriter) (h : x.writer.budget = none) :
    flush x = .ok x := by
  unfold flush
  rw [h]

theorem closeLoop_none (n : Nat) (x : XmlWriter) (h : x.writer.budget = none)
    (ho : x.opened = false) (hl : x.stack.length = n) (hn : x.ns_stack.length = n) :
    closeLoop n x =
      .ok { x with stack := [], ns_stack := [], opened := false,
                   writer := { chunks := x.writer.chunks
                                 ++ closingChunks (x.stack.zip x.ns_stack),
                               budget := none } } := by
  induction n generalizing x with
  | zero =>
    rw [List.length_eq_zero] at hl hn
    rw [closeLoop, hl, hn]
    simp only [List.zip_nil_left, closingChunks, List.append_nil]
    rw [← h, ← ho, ← hl, ← hn]
  | succ n ih =>
    match hs : x.stack, hns : x.ns_stack with
    | [], _ => rw [hs] at hl; exact absurd hl (by simp)
    | _ :: _, [] => rw [hns] at hn; exact absurd hn (by simp)
    | name :: sRest, ns :: nsRest =>
      rw [closeLoop, end_elem_none x name sRest ns nsRest h hs hns, XRes.andThen]
      rw [ih _ rfl rfl (by simpa [hs] using hl) (by simpa [hns] using hn)]
      simp [hs, hns, closingChunks, closeChunks, ho, List.zip]

theorem close_none (x : XmlWriter) (h : x.writer.budget = none)
    (ho : x.opened = false) (hlen : x.ns_stack.length = x.stack.length) :
    close x =
      .ok { x with stack := [], ns_stack := [], opened := false,
                   writer := { chunks := x.writer.chunks
                                 ++ closingChunks (x.stack.zip x.ns_stack),
                               budget := none } } :=
  closeLoop_none x.stack.length x h ho rfl hlen

end XmlWriter

/-! ## Preservation of state predicates across operations, for arbitrary
sinks (success and I/O-error outcomes alike) -/

theorem XRes.holds_ok {P : XmlWriter → Prop} {r : XRes} {y : XmlWriter}
    (h : r.Holds P) (hy : r = .ok y) : P y := by
  cases hy
  exact h

theorem XRes.holds_bind {P : XmlWriter → Prop} {f g : XmlWriter → XRes}
    (hf : ∀ x, P x → (f x).Holds P) (hg : ∀ y, P y → (g y).Holds P) :
    ∀ x, P x → ((f x).andThen g).Holds P := by
  intro x hP
  cases hr : f x with
  | ok y =>
    have : P y := XRes.holds_ok (hf x hP) hr
    simpa [XRes.andThen] using hg y this
  | ioErr y =>
    have := hf x hP
    rw [hr] at this
    simpa [XRes.andThen] using this
  | panicked y => simp [XRes.andThen, XRes.Holds]

namespace XmlWriter

theorem pres_write {P : XmlWriter → Prop}
    (hW : ∀ x w, P x → P { x with writer := w }) (t : String) :
    ∀ x, P x → (write t x).Holds P := by
  intro x hP
  unfold write
  match hb : x.writer.budget with
  | none => exact hW _ _ hP
  | some 0 => exact hP
  | some (n + 1) => exact hW _ _ hP

theorem pres_writeSpaces {P : XmlWriter → Prop}
    (hW : ∀ x w, P x → P { x with writer := w }) (n : Nat) :
    ∀ x, P x → (writeSpaces n x).Holds P := by
  induction n with
  | zero => intro x hP; exact hP
  | succ n ih => exact XRes.holds_bind (pres_write hW " ") ih

theorem pres_indent {P : XmlWriter → Prop}
    (hW : ∀ x w, P x → P { x with writer := w }) :
    ∀ x, P x → (indent x).Holds P := by
  intro x hP
  unfold indent
  by_cases hp : x.pretty = true
  · rw [if_pos hp]
    by_cases hs : x.stack.length > 0
    · rw [if_pos hs]
      exact XRes.holds_bind (pres_write hW "\n")
        (fun y hy => pres_writeSpaces hW (y.stack.length * 2) y hy) x hP
    · rw [if_neg hs]; exact hP
  · rw [if_neg hp]; exact hP

theorem ns_prefix_pres {P : XmlWriter → Prop}
    (hW : ∀ x w, P x → P { x with writer := w }) (ns : Option String) :
    ∀ x, P x → ( ns_prefix ns x).Holds P := by
  intro x hP
  cases ns with
  | none => exact hP
  | some n =>
    exact XRes.holds_bind (pres_write hW n) (pres_write hW ":") x hP

theorem pres_close_elem {P : XmlWriter → Prop}
    (hW : ∀ x w, P x → P { x with writer := w })
    (hC : ∀ x, P x → P { x with opened := false }) :
    ∀ x, P x → (close_elem x).Holds P := by
  intro x hP
  unfold close_elem
  by_cases ho : x.opened = true
  · rw [if_pos ho, ite_self]
    exact XRes.holds_bind (g := fun y => XRes.ok { y with opened := false })
      (pres_write hW ">") (fun y hy => hC y hy) x hP
  · rw [if_neg ho]; exact hP

theorem pres_escapeChars {P : XmlWriter → Prop}
    (hW : ∀ x w, P x → P { x with writer := w }) (cs : List Char) (ident : Bool) :
    ∀ x, P x → (escapeChars cs ident x).Holds P := by
  induction cs with
  | nil => intro x hP; exact hP
  | cons c cs ih => exact XRes.holds_bind (pres_write hW (escChar ident c)) ih

theorem pres_escape {P : XmlWriter → Prop}
    (hW : ∀ x w, P x → P { x with writer := w }) (t : String) (ident : Bool) :
    ∀ x, P x → (escape t ident x).Holds P :=
  pres_escapeChars hW t.data ident

theorem close_elem_ok_opened (x y : XmlWriter) (h : close_elem x = .ok y) :
    y.opened = false := by
  unfold close_elem at h
  by_cases ho : x.opened = true
  · rw [if_pos ho, ite_self] at h
    cases hw : write ">" x with
    | ok z => rw [hw] at h; simp only [XRes.andThen] at h; cases h; rfl
    | ioErr z => rw [hw] at h; simp [XRes.andThen] at h
    | panicked z => rw [hw] at h; simp [XRes.andThen] at h
  · rw [if_neg ho] at h
    cases h
    simpa using ho

end XmlWriter

theorem XRes.holds_mono {P Q : XmlWriter → Prop} (h : ∀ x, P x → Q x) :
    ∀ r : XRes, r.Holds P → r.Holds Q := by
  intro r
  cases r with
  | ok x => exact h x
  | ioErr x => exact h x
  | panicked x => intro; trivial

namespace XmlWriter

theorem pres_dtd {P : XmlWriter → Prop}
    (hW : ∀ x w, P x → P { x with writer := w }) (encoding : String) :
    ∀ x, P x → (dtd encoding x).Holds P := by
  intro x hP
  unfold dtd
  exact XRes.holds_bind (pres_write hW _)
    (XRes.holds_bind (pres_write hW _) (pres_write hW _)) x hP

theorem pres_text {P : XmlWriter → Prop}
    (hW : ∀ x w, P x → P { x with writer := w })
    (hC : ∀ x, P x → P { x with opened := false }) (t : String) :
    ∀ x, P x → (text t x).Holds P := by
  intro x hP
  unfold text
  exact XRes.holds_bind (pres_close_elem hW hC) (pres_escape hW t false) x hP

theorem pres_cdata {P : XmlWriter → Prop}
    (hW : ∀ x w, P x → P { x with writer := w })
    (hC : ∀ x, P x → P { x with opened := false }) (c : String) :
    ∀ x, P x → (cdata c x).Holds P := by
  intro x hP
  unfold cdata
  exact XRes.holds_bind (pres_close_elem hW hC)
    (XRes.holds_bind (pres_write hW _)
      (XRes.holds_bind (pres_write hW _) (pres_write hW _))) x hP

theorem pres_comment {P : XmlWriter → Prop}
    (hW : ∀ x w, P x → P { x with writer := w })
    (hC : ∀ x, P x → P { x with opened := false }) (c : String) :
    ∀ x, P x → (comment c x).Holds P := by
  intro x hP
  unfold comment
  exact XRes.holds_bind (pres_close_elem hW hC)
    (XRes.holds_bind (pres_indent hW)
      (XRes.holds_bind (pres_write hW _)
        (XRes.holds_bind (pres_escape hW c false) (pres_write hW _)))) x hP

theorem pres_elem {P : XmlWriter → Prop}
    (hW : ∀ x w, P x → P { x with writer := w })
    (hC : ∀ x, P x → P { x with opened := false }) (name : String) :
    ∀ x, P x → (elem name x).Holds P := by
  intro x hP
  unfold elem
  exact XRes.holds_bind (pres_close_elem hW hC)
    (XRes.holds_bind (pres_indent hW)
      (XRes.holds_bind (pres_write hW _)
        (XRes.holds_bind (fun y hy => ns_prefix_pres hW y.«namespace» y hy)
          (XRes.holds_bind (pres_write hW _) (pres_write hW _))))) x hP

theorem pres_empty_elem {P : XmlWriter → Prop}
    (hW : ∀ x w, P x → P { x with writer := w })
    (hC : ∀ x, P x → P { x with opened := false }) (name : String) :
    ∀ x, P x → (empty_elem name x).Holds P := by
  intro x hP
  unfold empty_elem
  exact XRes.holds_bind (pres_close_elem hW hC)
    (XRes.holds_bind (pres_indent hW)
      (XRes.holds_bind (pres_write hW _)
        (XRes.holds_bind (fun y hy => ns_prefix_pres hW y.«namespace» y hy)
          (XRes.holds_bind (pres_write hW _) (pres_write hW _))))) x hP

theorem pres_elem_text {P : XmlWriter → Prop}
    (hW : ∀ x w, P x → P { x with writer := w })
    (hC : ∀ x, P x → P { x with opened := false }) (name t : String) :
    ∀ x, P x → (elem_text name t x).Holds P := by
  intro x hP
  unfold elem_text
  exact XRes.holds_bind (pres_close_elem hW hC)
    (XRes.holds_bind (pres_indent hW)
      (XRes.holds_bind (pres_write hW _)
        (XRes.holds_bind (fun y hy => ns_prefix_pres hW y.«namespace» y hy)
          (XRes.holds_bind (pres_write hW _)
            (XRes.holds_bind (pres_write hW _)
              (XRes.holds_bind (pres_escape hW t false)
                (XRes.holds_bind (pres_write hW _)
                  (XRes.holds_bind (pres_write hW _) (pres_write hW _))))))))) x hP

theorem pres_attr {P : XmlWriter → Prop}
    (hW : ∀ x w, P x → P { x with writer := w }) (name value : String) :
    ∀ x, P x → (attr name value x).Holds P := by
  intro x hP
  unfold attr
  by_cases ho : (!x.opened) = true
  · rw [if_pos ho]; trivial
  · rw [if_neg ho]
    exact XRes.holds_bind (pres_write hW _)
      (XRes.holds_bind (pres_write hW _)
        (XRes.holds_bind (pres_write hW _)
          (XRes.holds_bind (pres_write hW _) (pres_write hW _)))) x hP

theorem pres_attr_esc {P : XmlWriter → Prop}
    (hW : ∀ x w, P x → P { x with writer := w }) (name value : String) :
    ∀ x, P x → (attr_esc name value x).Holds P := by
  intro x hP
  unfold attr_esc
  by_cases ho : (!x.opened) = true
  · rw [if_pos ho]; trivial
  · rw [if_neg ho]
    exact XRes.holds_bind (pres_write hW _)
      (XRes.holds_bind (pres_escape hW name true)
        (XRes.holds_bind (pres_write hW _)
          (XRes.holds_bind (pres_escape hW value false) (pres_write hW _)))) x hP

theorem pres_ns_declLoop {P : XmlWriter → Prop}
    (hW : ∀ x w, P x → P { x with writer := w })
    (nsMap : List (Option String × String)) :
    ∀ x, P x → ( ns_declLoop nsMap x).Holds P := by
  induction nsMap with
  | nil => intro x hP; exact hP
  | cons item rest ih =>
    intro x hP
    exact XRes.holds_bind (pres_attr hW _ _) ih x hP

theorem pres_ns_decl {P : XmlWriter → Prop}
    (hW : ∀ x w, P x → P { x with writer := w })
    (nsMap : List (Option String × String)) :
    ∀ x, P x → ( ns_decl nsMap x).Holds P := by
  intro x hP
  unfold ns_decl
  by_cases ho : (!x.opened) = true
  · rw [if_pos ho]; trivial
  · rw [if_neg ho]
    exact pres_ns_declLoop hW nsMap x hP

theorem pres_flush {P : XmlWriter → Prop} :
    ∀ x, P x → (flush x).Holds P := by
  intro x hP
  unfold flush
  match hb : x.writer.budget with
  | none => exact hP
  | some 0 => exact hP
  | some (n + 1) => exact hP

theorem pres_begin_elem {P : XmlWriter → Prop}
    (hW : ∀ x w, P x → P { x with writer := w })
    (hC : ∀ x, P x → P { x with opened := false })
    (hPush : ∀ x n ns, P x →
      P { x with stack := n :: x.stack, ns_stack := ns :: x.ns_stack })
    (hOpen : ∀ x, P x → x.stack ≠ [] → P { x with opened := true })
    (name : String) :
    ∀ x, P x → (begin_elem name x).Holds P := by
  have hWQ : ∀ x w, (P x ∧ x.stack ≠ []) → (P { x with writer := w } ∧ x.stack ≠ []) :=
    fun x w hx => ⟨hW x w hx.1, hx.2⟩
  intro x hP
  unfold begin_elem
  apply XRes.holds_bind (pres_close_elem hW hC) _ x hP
  intro y hy
  apply XRes.holds_bind (pres_indent hW) _ y hy
  intro z hz
  have hz' : P { z with stack := name :: z.stack,
                        ns_stack := z.«namespace» :: z.ns_stack } ∧
      ({ z with stack := name :: z.stack,
                ns_stack := z.«namespace» :: z.ns_stack } : XmlWriter).stack ≠ [] :=
    ⟨hPush z name z.«namespace» hz, by simp⟩
  refine XRes.holds_mono (P := fun v => P v ∧ v.stack ≠ []) (fun v hv => hv.1) _ ?_
  exact XRes.holds_bind
    (P := fun v => P v ∧ v.stack ≠ [])
    (pres_write hWQ "<")
    (fun u hu => XRes.holds_bind
      (P := fun v => P v ∧ v.stack ≠ [])
      (f := fun u => ns_prefix u.«namespace» { u with opened := true })
      (fun v hv => ns_prefix_pres hWQ v.«namespace» { v with opened := true }
        ⟨hOpen v hv.1 hv.2, hv.2⟩)
      (pres_write hWQ name) u hu)
    _ hz'

theorem pres_end_elem {P : XmlWriter → Prop}
    (hW : ∀ x w, P x → P { x with writer := w })
    (hC : ∀ x, P x → P { x with opened := false })
    (hPop : ∀ x n sR ns nsR, P x → x.opened = false →
      x.stack = n :: sR → x.ns_stack = ns :: nsR →
      P { x with stack := sR, ns_stack := nsR }) :
    ∀ x, P x → (end_elem x).Holds P := by
  intro x hP
  unfold end_elem
  cases hr : close_elem x with
  | ioErr y =>
    have := pres_close_elem hW hC x hP
    rw [hr] at this
    exact this
  | panicked y => trivial
  | ok y =>
    have hPy : P y := XRes.holds_ok (pres_close_elem hW hC x hP) hr
    have hyo : y.opened = false := close_elem_ok_opened x y hr
    simp only [XRes.andThen]
    rcases hns : y.ns_stack with _ | ⟨ns, nsRest⟩
    · trivial
    · rcases hst : y.stack with _ | ⟨name, sRest⟩
      · trivial
      · have hPop' : P { y with ns_stack := nsRest, stack := sRest } :=
          hPop y name sRest ns nsRest hPy hyo hst hns
        apply XRes.holds_bind (pres_write hW "</") _ _ hPop'
        intro z hz
        apply XRes.holds_bind (ns_prefix_pres hW ns) _ z hz
        intro u hu
        apply XRes.holds_bind (pres_write hW name) _ u hu
        intro v hv
        rw [ite_self]
        exact pres_write hW ">" v hv

theorem pres_closeLoop {P : XmlWriter → Prop}
    (hW : ∀ x w, P x → P { x with writer := w })
    (hC : ∀ x, P x → P { x with opened := false })
    (hPop : ∀ x n sR ns nsR, P x → x.opened = false →
      x.stack = n :: sR → x.ns_stack = ns :: nsR →
      P { x with stack := sR, ns_stack := nsR }) (n : Nat) :
    ∀ x, P x → (closeLoop n x).Holds P := by
  induction n with
  | zero => intro x hP; exact hP
  | succ n ih => exact XRes.holds_bind (pres_end_elem hW hC hPop) ih

theorem pres_close {P : XmlWriter → Prop}
    (hW : ∀ x w, P x → P { x with writer := w })
    (hC : ∀ x, P x → P { x with opened := false })
    (hPop : ∀ x n sR ns nsR, P x → x.opened = false →
      x.stack = n :: sR → x.ns_stack = ns :: nsR →
      P { x with stack := sR, ns_stack := nsR }) :
    ∀ x, P x → (close x).Holds P := by
  intro x hP
  unfold close
  exact pres_closeLoop hW hC hPop x.stack.length x hP

theorem pres_op {P : XmlWriter → Prop}
    (hW : ∀ x w, P x → P { x with writer := w })
    (hC : ∀ x, P x → P { x with opened := false })
    (hPush : ∀ x n ns, P x →
      P { x with stack := n :: x.stack, ns_stack := ns :: x.ns_stack })
    (hOpen : ∀ x, P x → x.stack ≠ [] → P { x with opened := true })
    (hPop : ∀ x n sR ns nsR, P x → x.opened = false →
      x.stack = n :: sR → x.ns_stack = ns :: nsR →
      P { x with stack := sR, ns_stack := nsR }) (op : Op) :
    ∀ x, P x → (op.apply x).Holds P := by
  cases op with
  | dtd encoding => exact pres_dtd hW encoding
  | ns_decl nsMap => exact pres_ns_decl hW nsMap
  | elem name => exact pres_elem hW hC name
  | elem_text name t => exact pres_elem_text hW hC name t
  | begin_elem name => exact pres_begin_elem hW hC hPush hOpen name
  | end_elem => exact pres_end_elem hW hC hPop
  | empty_elem name => exact pres_empty_elem hW hC name
  | attr name value => exact pres_attr hW name value
  | attr_esc name value => exact pres_attr_esc hW name value
  | text t => exact pres_text hW hC t
  | write t => exact pres_write hW t
  | cdata c => exact pres_cdata hW hC c
  | comment c => exact pres_comment hW hC c
  | close => exact pres_close hW hC hPop
  | flush => exact pres_flush

theorem reachable_pres {P : XmlWriter → Prop}
    (hNew : ∀ w, P (new w))
    (hNs : ∀ x ns, P x → P { x with «namespace» := ns })
    (hPretty : ∀ x b, P x → P { x with pretty := b })
    (hW : ∀ x w, P x → P { x with writer := w })
    (hC : ∀ x, P x → P { x with opened := false })
    (hPush : ∀ x n ns, P x →
      P { x with stack := n :: x.stack, ns_stack := ns :: x.ns_stack })
    (hOpen : ∀ x, P x → x.stack ≠ [] → P { x with opened := true })
    (hPop : ∀ x n sR ns nsR, P x → x.opened = false →
      x.stack = n :: sR → x.ns_stack = ns :: nsR →
      P { x with stack := sR, ns_stack := nsR }) :
    ∀ x, Reachable x → P x := by
  intro x hx
  induction hx with
  | fresh w => exact hNew w
  | set_ns x ns _ ih => exact hNs x ns ih
  | set_pretty x b _ ih => exact hPretty x b ih
  | step_ok x y op _ heq ih =>
    exact XRes.holds_ok (pres_op hW hC hPush hOpen hPop op x ih) heq
  | step_io x y op _ heq ih =>
    have := pres_op hW hC hPush hOpen hPop op x ih
    rw [heq] at this
    exact this

/-- Every reachable writer state with an unterminated start tag has a
nonempty element stack. -/
theorem reachable_openInv (x : XmlWriter) (hx : Reachable x) :
    x.opened = true → x.stack ≠ [] := by
  refine reachable_pres (P := fun y => y.opened = true → y.stack ≠ []) ?_ ?_ ?_ ?_ ?_ ?_ ?_ ?_ x hx
  · intro w h
    simp [new] at h
  · intro y ns h hy
    exact h hy
  · intro y b h hy
    exact h hy
  · intro y w h hy
    exact h hy
  · intro y h hy
    simp at hy
  · intro y n ns h
    intro
    simp
  · intro y h hstack
    intro
    exact hstack
  · intro y n sR ns nsR h hyo hys hyn
    intro hcontra
    simp at hcontra
    rw [hcontra] at hyo
    simp at hyo

/-- Every reachable writer state has element and namespace stacks of
equal length. -/
theorem reachable_balanced (x : XmlWriter) (hx : Reachable x) :
    x.stack.length = x.ns_stack.length := by
  refine reachable_pres (P := fun y => y.stack.length = y.ns_stack.length) ?_ ?_ ?_ ?_ ?_ ?_ ?_ ?_ x hx
  · intro w
    simp [new]
  · intro y ns h
    exact h
  · intro y b h
    exact h
  · intro y w h
    exact h
  · intro y h
    exact h
  · intro y n ns h
    simpa using h
  · intro y h _
    exact h
  · intro y n sR ns nsR h _ hys hyn
    simp only
    rw [hys, hyn] at h
    simpa using h

end XmlWriter

/-! ## Analysis of the escaper (for the escaper-correctness property) -/

namespace XmlWriter

theorem entity_amp_head :
    ∀ e ∈ entityList, ∃ r, e.data = (Char.ofNat 38) :: r ∧ (Char.ofNat 38) ∉ r := by
  intro e he
  simp only [entityList, List.mem_cons, List.not_mem_nil, or_false] at he
  rcases he with rfl | rfl | rfl | rfl | rfl
  · exact ⟨['q','u','o','t',';'], by decide, by decide⟩
  · exact ⟨['a','p','o','s',';'], by decide, by decide⟩
  · exact ⟨['a','m','p',';'], by decide, by decide⟩
  · exact ⟨['l','t',';'], by decide, by decide⟩
  · exact ⟨['g','t',';'], by decide, by decide⟩

theorem entityFor_some_cases (c : Char) (e : String) (h : entityFor c = some e) :
    (c = Char.ofNat 34 ∧ e = "&quot;") ∨ (c = Char.ofNat 39 ∧ e = "&apos;") ∨
    (c = Char.ofNat 38 ∧ e = "&amp;") ∨ (c = Char.ofNat 60 ∧ e = "&lt;") ∨
    (c = Char.ofNat 62 ∧ e = "&gt;") := by
  unfold entityFor at h
  split_ifs at h <;> simp_all

theorem escChar_entity (ident : Bool) (c : Char) (e : String)
    (h : entityFor c = some e) : escChar ident c = e := by
  rcases entityFor_some_cases c e h with ⟨rfl, rfl⟩ | ⟨rfl, rfl⟩ | ⟨rfl, rfl⟩ |
    ⟨rfl, rfl⟩ | ⟨rfl, rfl⟩ <;> rfl

theorem escChar_entity_mem (c : Char) (e : String)
    (h : entityFor c = some e) : e ∈ entityList := by
  rcases entityFor_some_cases c e h with ⟨rfl, rfl⟩ | ⟨rfl, rfl⟩ | ⟨rfl, rfl⟩ |
    ⟨rfl, rfl⟩ | ⟨rfl, rfl⟩ <;> decide

theorem escChar_plain (ident : Bool) (c : Char) (h : entityFor c = none)
    (hbs : ¬(c = Char.ofNat 92 ∧ ident = true)) :
    escChar ident c = String.singleton c := by
  unfold entityFor at h
  unfold escChar
  split_ifs at h ⊢ <;>
    simp_all [Bool.and_eq_true, decide_eq_true_eq]

theorem escChar_bs : escChar true (Char.ofNat 92) = "\\\\" := by decide

theorem escChar_cases (ident : Bool) (c : Char) :
    (∃ e, entityFor c = some e ∧ escChar ident c = e) ∨
    (entityFor c = none ∧ c = Char.ofNat 92 ∧ ident = true ∧ escChar ident c = "\\\\") ∨
    (entityFor c = none ∧ ¬(c = Char.ofNat 92 ∧ ident = true) ∧
      escChar ident c = String.singleton c) := by
  cases he : entityFor c with
  | some e => exact Or.inl ⟨e, rfl, escChar_entity ident c e he⟩
  | none =>
    by_cases hbs : c = Char.ofNat 92 ∧ ident = true
    · refine Or.inr (Or.inl ⟨rfl, hbs.1, hbs.2, ?_⟩)
      rw [hbs.1, hbs.2]
      exact escChar_bs
    · exact Or.inr (Or.inr ⟨rfl, hbs, escChar_plain ident c he hbs⟩)

theorem singleton_data (c : Char) : (String.singleton c).data = [c] := rfl

theorem amp_mem_escChar (ident : Bool) (c : Char)
    (h : Char.ofNat 38 ∈ (escChar ident c).data) : escChar ident c ∈ entityList := by
  rcases escChar_cases ident c with ⟨e, he, heq⟩ | ⟨he, hc, hi, heq⟩ | ⟨he, hbs, heq⟩
  · rw [heq]
    exact escChar_entity_mem c e he
  · rw [heq] at h
    exact absurd h (by decide)
  · rw [heq, singleton_data, List.mem_singleton] at h
    rw [← h] at he
    exact absurd he (by decide)

theorem four_not_mem_escChar (ident : Bool) (c : Char) (d : Char)
    (hd : d ∈ (escChar ident c).data)
    (h4 : d = Char.ofNat 34 ∨ d = Char.ofNat 39 ∨ d = Char.ofNat 60 ∨ d = Char.ofNat 62) :
    False := by
  rcases escChar_cases ident c with ⟨e, he, heq⟩ | ⟨he, hc, hi, heq⟩ | ⟨he, hbs, heq⟩
  · rw [heq] at hd
    rcases entityFor_some_cases c e he with ⟨hcc, rfl⟩ | ⟨hcc, rfl⟩ | ⟨hcc, rfl⟩ |
      ⟨hcc, rfl⟩ | ⟨hcc, rfl⟩ <;> rcases h4 with rfl | rfl | rfl | rfl <;>
      exact absurd hd (by decide)
  · rw [heq] at hd
    rcases h4 with rfl | rfl | rfl | rfl <;> exact absurd hd (by decide)
  · rw [heq, singleton_data, List.mem_singleton] at hd
    rw [← hd] at he
    rcases h4 with rfl | rfl | rfl | rfl <;> exact absurd he (by decide)

theorem count_escChar (ident : Bool) (c : Char) :
    ((escChar ident c).data.count (Char.ofNat 92)) =
      (if ident then 2 else 1) * (if c = Char.ofNat 92 then 1 else 0) := by
  rcases escChar_cases ident c with ⟨e, he, heq⟩ | ⟨he, hc, hi, heq⟩ | ⟨he, hbs, heq⟩
  · rw [heq]
    have hc : c ≠ Char.ofNat 92 := by
      rcases entityFor_some_cases c e he with ⟨rfl, rfl⟩ | ⟨rfl, rfl⟩ | ⟨rfl, rfl⟩ |
        ⟨rfl, rfl⟩ | ⟨rfl, rfl⟩ <;> decide
    rw [if_neg hc, mul_zero]
    rcases entityFor_some_cases c e he with ⟨_, rfl⟩ | ⟨_, rfl⟩ | ⟨_, rfl⟩ |
      ⟨_, rfl⟩ | ⟨_, rfl⟩ <;> decide
  · rw [heq, hc, hi]
    decide
  · rw [heq]
    by_cases hcb : c = Char.ofNat 92
    · have hif : ident = false := by
        cases ident
        · rfl
        · exact absurd ⟨hcb, rfl⟩ hbs
      rw [hif, hcb]
      decide
    · rw [singleton_data, if_neg hcb]
      cases ident <;> simp [List.count_cons, hcb]

theorem escList_count (ident : Bool) (cs : List Char) :
    (((cs.map (escChar ident)).map String.data).flatten).count (Char.ofNat 92) =
      (if ident then 2 else 1) * cs.count (Char.ofNat 92) := by
  induction cs with
  | nil => simp
  | cons c cs ih =>
    simp only [List.map_cons, List.flatten_cons, List.count_append, List.count_cons, ih,
      count_escChar]
    cases ident <;> by_cases hc : c = Char.ofNat 92 <;>
      simp [hc] <;> omega

theorem amp_split (L : List String)
    (hL : ∀ s ∈ L, Char.ofNat 38 ∈ s.data → s ∈ entityList) :
    ∀ u v, (L.map String.data).flatten = u ++ (Char.ofNat 38) :: v →
      ∃ e ∈ entityList, e.data <+: (Char.ofNat 38) :: v := by
  induction L with
  | nil =>
    intro u v h
    simp at h
  | cons s L ih =>
    intro u v h
    rw [List.map_cons, List.flatten_cons] at h
    have ih' := ih (fun s' hs' => hL s' (List.mem_cons_of_mem _ hs'))
    rcases List.append_eq_append_iff.mp h with ⟨a, ha1, ha2⟩ | ⟨c', hc1, hc2⟩
    · exact ih' a v ha2
    · cases c' with
      | nil =>
        refine ih' [] v ?_
        rw [List.nil_append]
        rw [List.append_nil] at hc1
        exact hc2.symm
      | cons d c'' =>
        have hd : d = Char.ofNat 38 ∧ v = c'' ++ (L.map String.data).flatten := by
          have := hc2
          simp only [List.cons_append] at this
          exact ⟨(List.cons.injEq _ _ _ _ ▸ this).1.symm, by
            cases this
            rfl⟩
        rcases hd with ⟨rfl, rfl⟩
        have hamp : Char.ofNat 38 ∈ s.data := by
          rw [hc1]
          simp
        have hsE : s ∈ entityList := hL s (List.mem_cons_self _ _) hamp
        obtain ⟨r, hr, hnr⟩ := entity_amp_head s hsE
        cases u with
        | nil =>
          rw [List.nil_append] at hc1
          refine ⟨s, hsE, (L.map String.data).flatten, ?_⟩
          rw [hc1]
          simp
        | cons hd' u' =>
          exfalso
          have : (Char.ofNat 38) :: r = (hd' :: u') ++ (Char.ofNat 38) :: c'' :=
            hr.symm.trans hc1
          simp only [List.cons_append, List.cons.injEq] at this
          apply hnr
          rw [this.2]
          simp

end XmlWriter

/-! ## Closing-tag bookkeeping for balanced begin/end sequences -/

namespace XmlWriter

theorem closingNames_nil : closingNames [] = [] := rfl

theorem closingNames_cons_ne (c : String) (r : List String) (h : c ≠ "</") :
    closingNames (c :: r) = closingNames r := by
  cases r with
  | nil => rfl
  | cons nm r => simp [closingNames, h]

theorem closingNames_close (nm : String) (r : List String) :
    closingNames ("</" :: nm :: r) = nm :: closingNames r := by
  simp [closingNames]

theorem noDangle_nil : NoDangle [] := by
  intro b
  rfl

theorem noDangle_append (a b : List String) (ha : NoDangle a) (hb : NoDangle b) :
    NoDangle (a ++ b) := by
  intro c
  rw [List.append_assoc, ha, hb, ha, List.append_assoc]

theorem noDangle_of_no_close (seg : List String) (h : "</" ∉ seg) :
    NoDangle seg ∧ closingNames seg = [] := by
  induction seg with
  | nil => exact ⟨noDangle_nil, rfl⟩
  | cons c r ih =>
    have hc : c ≠ "</" := fun hcc => h (hcc ▸ List.mem_cons_self _ _)
    have hr : "</" ∉ r := fun hrr => h (List.mem_cons_of_mem _ hrr)
    obtain ⟨ihd, ihn⟩ := ih hr
    constructor
    · intro b
      rw [List.cons_append, closingNames_cons_ne _ _ hc, closingNames_cons_ne _ _ hc,
        ihd, ihn]
    · rw [closingNames_cons_ne _ _ hc, ihn]

theorem noDangle_triple (nm : String) (_h : nm ≠ "</") :
    NoDangle ["</", nm, ">"] ∧ closingNames ["</", nm, ">"] = [nm] := by
  constructor
  · intro b
    rw [List.cons_append, List.cons_append, List.cons_append, List.nil_append]
    rw [closingNames_close, closingNames_close]
    rw [closingNames_cons_ne ">" b (by decide), closingNames_cons_ne ">" [] (by decide)]
    rfl
  · rw [closingNames_close, closingNames_cons_ne ">" [] (by decide)]
    rfl

theorem closingNames_closingChunks (st : List String) (h : ∀ nm ∈ st, nm ≠ "</") :
    NoDangle (closingChunks (st.zip (List.replicate st.length none))) ∧
    closingNames (closingChunks (st.zip (List.replicate st.length none))) = st := by
  induction st with
  | nil => exact ⟨noDangle_nil, rfl⟩
  | cons nm st ih =>
    have hnm : nm ≠ "</" := h nm (List.mem_cons_self _ _)
    obtain ⟨ihd, ihn⟩ := ih (fun a ha => h a (List.mem_cons_of_mem _ ha))
    have hz : (nm :: st).zip (List.replicate (nm :: st).length none) =
        (nm, (none : Option String)) :: st.zip (List.replicate st.length none) := by
      simp [List.zip, List.replicate_succ]
    rw [hz]
    have hcc : closingChunks ((nm, (none : Option String)) ::
        st.zip (List.replicate st.length none)) =
        ["</", nm, ">"] ++ closingChunks (st.zip (List.replicate st.length none)) := by
      simp [closingChunks, nsChunks]
    rw [hcc]
    obtain ⟨htd, htn⟩ := noDangle_triple nm hnm
    refine ⟨noDangle_append _ _ htd ihd, ?_⟩
    rw [htd, htn, ihn]
    rfl

theorem simCount (ops : List Op) :
    ∀ st : List String, balancedFrom st.length ops = true →
    ∀ nm : String,
      (simClosings ops st ++ simStack ops st).count nm =
        ops.count (Op.begin_elem nm) + st.count nm := by
  induction ops with
  | nil =>
    intro st _ nm
    simp [simClosings, simStack]
  | cons op ops ih =>
    intro st hbal nm
    cases op with
    | begin_elem nm' =>
      have hbal' : balancedFrom (nm' :: st).length ops = true := by
        simpa [balancedFrom] using hbal
      have hih := ih (nm' :: st) hbal' nm
      simp only [simClosings, simStack]
      rw [hih]
      simp only [List.count_cons, beq_iff_eq, Op.begin_elem.injEq]
      by_cases hs : nm = nm' <;> simp_all <;> try omega
    | end_elem =>
      have hpos : st.length > 0 ∧ balancedFrom (st.length - 1) ops = true := by
        have h2 := hbal
        simp only [balancedFrom, Bool.and_eq_true, decide_eq_true_eq] at h2
        exact h2
      cases st with
      | nil => exact absurd hpos.1 (by simp)
      | cons s st =>
        have hbal' : balancedFrom st.length ops = true := by
          simpa using hpos.2
        have hih := ih st hbal' nm
        simp only [simClosings, simStack, List.headD, List.tail]
        simp only [List.cons_append, List.count_cons, hih, beq_iff_eq]
        by_cases hs : nm = s <;> simp_all <;> try omega
    | dtd e =>
      have hih := ih st (by simpa [balancedFrom] using hbal) nm
      simp only [simClosings, simStack]
      rw [hih]
      simp [List.count_cons]
    | ns_decl m =>
      have hih := ih st (by simpa [balancedFrom] using hbal) nm
      simp only [simClosings, simStack]
      rw [hih]
      simp [List.count_cons]
    | elem n =>
      have hih := ih st (by simpa [balancedFrom] using hbal) nm
      simp only [simClosings, simStack]
      rw [hih]
      simp [List.count_cons]
    | elem_text n t =>
      have hih := ih st (by simpa [balancedFrom] using hbal) nm
      simp only [simClosings, simStack]
      rw [hih]
      simp [List.count_cons]
    | empty_elem n =>
      have hih := ih st (by simpa [balancedFrom] using hbal) nm
      simp only [simClosings, simStack]
      rw [hih]
      simp [List.count_cons]
    | attr n v =>
      have hih := ih st (by simpa [balancedFrom] using hbal) nm
      simp only [simClosings, simStack]
      rw [hih]
      simp [List.count_cons]
    | attr_esc n v =>
      have hih := ih st (by simpa [balancedFrom] using hbal) nm
      simp only [simClosings, simStack]
      rw [hih]
      simp [List.count_cons]
    | text t =>
      have hih := ih st (by simpa [balancedFrom] using hbal) nm
      simp only [simClosings, simStack]
      rw [hih]
      simp [List.count_cons]
    | write t =>
      have hih := ih st (by simpa [balancedFrom] using hbal) nm
      simp only [simClosings, simStack]
      rw [hih]
      simp [List.count_cons]
    | cdata c =>
      have hih := ih st (by simpa [balancedFrom] using hbal) nm
      simp only [simClosings, simStack]
      rw [hih]
      simp [List.count_cons]
    | comment c =>
      have hih := ih st (by simpa [balancedFrom] using hbal) nm
      simp only [simClosings, simStack]
      rw [hih]
      simp [List.count_cons]
    | close =>
      have hih := ih st (by simpa [balancedFrom] using hbal) nm
      simp only [simClosings, simStack]
      rw [hih]
      simp [List.count_cons]
    | flush =>
      have hih := ih st (by simpa [balancedFrom] using hbal) nm
      simp only [simClosings, simStack]
      rw [hih]
      simp [List.count_cons]

end XmlWriter

namespace XmlWriter

theorem no_close_closeChunks (x : XmlWriter) : "</" ∉ closeChunks x := by
  unfold closeChunks
  split_ifs <;> decide

theorem no_close_indentChunks (x : XmlWriter) : "</" ∉ indentChunks x := by
  unfold indentChunks
  split_ifs <;> intro hmem <;>
    simp only [List.mem_cons, List.mem_replicate, List.not_mem_nil] at hmem <;>
    rcases hmem with h | ⟨_, h⟩ <;> exact absurd h (by decide)

theorem closeLoop_none_any (n : Nat) (x : XmlWriter) (h : x.writer.budget = none)
    (hl : x.stack.length = n) (hn : x.ns_stack.length = n)
    (hop : x.opened = true → x.stack ≠ []) :
    closeLoop n x =
      .ok { x with stack := [], ns_stack := [],
                   opened := (if n = 0 then x.opened else false),
                   writer := { chunks := x.writer.chunks
                                 ++ ((if n = 0 then [] else closeChunks x)
                                      ++ closingChunks (x.stack.zip x.ns_stack)),
                               budget := none } } := by
  cases n with
  | zero =>
    rw [List.length_eq_zero] at hl hn
    rw [closeLoop, hl, hn]
    rw [show ((if 0 = 0 then ([] : List String) else closeChunks x)
        ++ closingChunks (List.zip [] [])) = [] from by simp [closingChunks]]
    rw [List.append_nil]
    rw [show (if 0 = 0 then x.opened else false) = x.opened from rfl]
    rw [← h, ← hl, ← hn]
  | succ n =>
    rw [if_neg (Nat.succ_ne_zero n)]
    match hs : x.stack, hns : x.ns_stack with
    | [], _ => rw [hs] at hl; exact absurd hl (by simp)
    | _ :: _, [] => rw [hns] at hn; exact absurd hn (by simp)
    | nm :: sR, ns :: nsR =>
      rw [closeLoop, end_elem_none x nm sR ns nsR h hs hns, XRes.andThen]
      rw [closeLoop_none n _ rfl rfl (by simpa [hs] using hl) (by simpa [hns] using hn)]
      simp [hs, hns, closingChunks, List.zip]

theorem run_beginend (ops : List Op) :
    ∀ x : XmlWriter,
    (∀ op ∈ ops, op.isBeginEnd = true) →
    (∀ nm, Op.begin_elem nm ∈ ops → nm ≠ "</") →
    balancedFrom x.stack.length ops = true →
    x.writer.budget = none →
    x.«namespace» = none →
    x.ns_stack = List.replicate x.stack.length none →
    (∀ nm ∈ x.stack, nm ≠ "</") →
    (x.opened = true → x.stack ≠ []) →
    NoDangle x.writer.chunks →
    ∃ y : XmlWriter,
      runOps ops x = .ok y ∧
      y.stack = simStack ops x.stack ∧
      y.«namespace» = none ∧
      y.writer.budget = none ∧
      y.ns_stack = List.replicate y.stack.length none ∧
      (∀ nm ∈ y.stack, nm ≠ "</") ∧
      (y.opened = true → y.stack ≠ []) ∧
      NoDangle y.writer.chunks ∧
      closingNames y.writer.chunks =
        closingNames x.writer.chunks ++ simClosings ops x.stack := by
  induction ops with
  | nil =>
    intro x hops hnm hbal hbud hns hrep hstn hop hnd
    exact ⟨x, rfl, rfl, hns, hbud, hrep, hstn, hop, hnd, by simp [simClosings]⟩
  | cons op ops ih =>
    intro x hops hnm hbal hbud hns hrep hstn hop hnd
    cases op with
    | begin_elem nm =>
      have hnm0 : nm ≠ "</" := hnm nm (List.mem_cons_self _ _)
      have hseg : "</" ∉ closeChunks x ++ indentChunks x ++ ["<"] ++ nsChunks none ++ [nm] := by
        intro hmem
        simp only [List.mem_append, nsChunks, List.mem_cons, List.not_mem_nil,
          or_false] at hmem
        rcases hmem with ((hc | hi) | hlt) | hnm2
        · exact no_close_closeChunks x hc
        · exact no_close_indentChunks x hi
        · exact absurd hlt (by decide)
        · exact hnm0 hnm2.symm
      obtain ⟨hsegnd, hsegcn⟩ := noDangle_of_no_close _ hseg
      have hx1run := begin_elem_none nm x hbud
      rw [hns] at hx1run
      set x1 : XmlWriter :=
        { stack := nm :: x.stack,
          ns_stack := none :: x.ns_stack,
          opened := true,
          pretty := x.pretty,
          «namespace» := none,
          writer := { chunks := x.writer.chunks ++ closeChunks x ++ indentChunks x
                        ++ ["<"] ++ nsChunks none ++ [nm],
                      budget := none } } with hx1
      obtain ⟨y, hrun, hst, hyns, hybud, hyrep, hystn, hyop, hynd, hycn⟩ :=
        ih x1
          (fun o hoo => hops o (List.mem_cons_of_mem _ hoo))
          (fun a ha => hnm a (List.mem_cons_of_mem _ ha))
          (by
            show balancedFrom (nm :: x.stack).length ops = true
            simpa [balancedFrom] using hbal)
          rfl
          (by
            rw [hx1])
          (by
            show none :: x.ns_stack = List.replicate (nm :: x.stack).length none
            rw [hrep]
            simp [List.replicate_succ])
          (by
            intro a ha
            rcases List.mem_cons.mp ha with rfl | ha
            · exact hnm0
            · exact hstn a ha)
          (by intro _; simp)
          (by
            rw [hx1]
            show NoDangle (x.writer.chunks ++ closeChunks x ++ indentChunks x
              ++ ["<"] ++ nsChunks none ++ [nm])
            have heq : x.writer.chunks ++ closeChunks x ++ indentChunks x
                ++ ["<"] ++ nsChunks none ++ [nm]
                = x.writer.chunks ++ (closeChunks x ++ indentChunks x
                    ++ ["<"] ++ nsChunks none ++ [nm]) := by
              simp [List.append_assoc]
            rw [heq]
            exact noDangle_append _ _ hnd hsegnd)
      refine ⟨y, ?_, ?_, hyns, hybud, hyrep, hystn, hyop, hynd, ?_⟩
      · simp only [runOps, Op.apply]
        rw [hx1run]
        simp only [XRes.andThen]
        rw [hx1] at hrun
        exact hrun
      · simpa [simStack] using hst
      · rw [hycn]
        have : closingNames x1.writer.chunks = closingNames x.writer.chunks := by
          rw [hx1]
          show closingNames (x.writer.chunks ++ closeChunks x ++ indentChunks x
            ++ ["<"] ++ nsChunks none ++ [nm]) = _
          rw [List.append_assoc, List.append_assoc, List.append_assoc,
            List.append_assoc, hnd]
          rw [show closeChunks x ++ (indentChunks x ++ (["<"] ++ (nsChunks none ++ [nm])))
            = closeChunks x ++ indentChunks x ++ ["<"] ++ nsChunks none ++ [nm] by
              simp [List.append_assoc]]
          rw [hsegcn, List.append_nil]
        rw [this]
        simp [simClosings, simStack, hx1]
    | end_elem =>
      have hpos : x.stack.length > 0 ∧ balancedFrom (x.stack.length - 1) ops = true := by
        have h2 := hbal
        simp only [balancedFrom, Bool.and_eq_true, decide_eq_true_eq] at h2
        exact h2
      match hs : x.stack, hns2 : x.ns_stack with
      | [], _ => rw [hs] at hpos; exact absurd hpos.1 (by simp)
      | nm :: sR, [] =>
        rw [hrep, hs] at hns2
        exact absurd hns2 (by simp [List.replicate_succ])
      | nm :: sR, ns :: nsR =>
        have hnm0 : nm ≠ "</" := hstn nm (by rw [hs]; exact List.mem_cons_self _ _)
        have hnsr : ns = none ∧ nsR = List.replicate sR.length none := by
          rw [hrep, hs] at hns2
          simp only [List.length_cons, List.replicate_succ, List.cons.injEq] at hns2
          exact ⟨hns2.1.symm, hns2.2.symm⟩
        have hx1run := end_elem_none x nm sR ns nsR hbud hs hns2
        rw [hnsr.1] at hx1run
        have hseg : "</" ∉ closeChunks x := no_close_closeChunks x
        obtain ⟨hclnd, hclcn⟩ := noDangle_of_no_close _ hseg
        obtain ⟨htrnd, htrcn⟩ := noDangle_triple nm hnm0
        set x1 : XmlWriter :=
          { x with stack := sR, ns_stack := nsR, opened := false,
                   writer := { chunks := x.writer.chunks ++ closeChunks x
                                 ++ ["</"] ++ nsChunks none ++ [nm, ">"],
                               budget := none } } with hx1
        obtain ⟨y, hrun, hst, hyns, hybud, hyrep, hystn, hyop, hynd, hycn⟩ :=
          ih x1
            (fun o hoo => hops o (List.mem_cons_of_mem _ hoo))
            (fun a ha => hnm a (List.mem_cons_of_mem _ ha))
            (by
              show balancedFrom sR.length ops = true
              have := hpos.2
              rw [hs] at this
              simpa using this)
            rfl
            (by
              rw [hx1]
              exact hns)
            (by
              show nsR = List.replicate sR.length none
              exact hnsr.2)
            (by
              intro a ha
              exact hstn a (by rw [hs]; exact List.mem_cons_of_mem _ ha))
            (by intro hfalse; simp at hfalse)
            (by
              show NoDangle (x.writer.chunks ++ closeChunks x
                ++ ["</"] ++ nsChunks none ++ [nm, ">"])
              have h1 : NoDangle (closeChunks x ++ ["</", nm, ">"]) :=
                noDangle_append _ _ hclnd htrnd
              have : x.writer.chunks ++ closeChunks x ++ ["</"] ++ nsChunks none ++ [nm, ">"]
                  = x.writer.chunks ++ (closeChunks x ++ ["</", nm, ">"]) := by
                simp [nsChunks, List.append_assoc]
              rw [this]
              exact noDangle_append _ _ hnd h1)
        refine ⟨y, ?_, ?_, hyns, hybud, hyrep, hystn, hyop, hynd, ?_⟩
        · simp only [runOps, Op.apply]
          rw [hx1run]
          simp only [XRes.andThen]
          rw [hx1] at hrun
          exact hrun
        · rw [hst]
          simp [simStack, hs]
        · rw [hycn]
          have hcn1 : closingNames x1.writer.chunks
              = closingNames x.writer.chunks ++ [nm] := by
            rw [hx1]
            show closingNames (x.writer.chunks ++ closeChunks x
              ++ ["</"] ++ nsChunks none ++ [nm, ">"]) = _
            have : x.writer.chunks ++ closeChunks x ++ ["</"] ++ nsChunks none ++ [nm, ">"]
                = x.writer.chunks ++ (closeChunks x ++ ["</", nm, ">"]) := by
              simp [nsChunks, List.append_assoc]
            rw [this, hnd, hclnd, hclcn, htrcn]
            simp
          rw [hcn1]
          simp [simClosings, hs, hx1, List.append_assoc]
    | dtd e =>
      exact absurd (hops _ (List.mem_cons_self _ _)) (by simp [Op.isBeginEnd])
    | ns_decl m =>
      exact absurd (hops _ (List.mem_cons_self _ _)) (by simp [Op.isBeginEnd])
    | elem n =>
      exact absurd (hops _ (List.mem_cons_self _ _)) (by simp [Op.isBeginEnd])
    | elem_text n t =>
      exact absurd (hops _ (List.mem_cons_self _ _)) (by simp [Op.isBeginEnd])
    | empty_elem n =>
      exact absurd (hops _ (List.mem_cons_self _ _)) (by simp [Op.isBeginEnd])
    | attr n v =>
      exact absurd (hops _ (List.mem_cons_self _ _)) (by simp [Op.isBeginEnd])
    | attr_esc n v =>
      exact absurd (hops _ (List.mem_cons_self _ _)) (by simp [Op.isBeginEnd])
    | text t =>
      exact absurd (hops _ (List.mem_cons_self _ _)) (by simp [Op.isBeginEnd])
    | write t =>
      exact absurd (hops _ (List.mem_cons_self _ _)) (by simp [Op.isBeginEnd])
    | cdata c =>
      exact absurd (hops _ (List.mem_cons_self _ _)) (by simp [Op.isBeginEnd])
    | comment c =>
      exact absurd (hops _ (List.mem_cons_self _ _)) (by simp [Op.isBeginEnd])
    | close =>
      exact absurd (hops _ (List.mem_cons_self _ _)) (by simp [Op.isBeginEnd])
    | flush =>
      exact absurd (hops _ (List.mem_cons_self _ _)) (by simp [Op.isBeginEnd])

end XmlWriter

namespace XmlWriter

theorem begin_elem_ok_stacks (name : String) (x y : XmlWriter)
    (h : begin_elem name x = .ok y) :
    y.stack = name :: x.stack ∧ y.ns_stack = x.«namespace» :: x.ns_stack := by
  unfold begin_elem at h
  cases h1 : close_elem x with
  | ioErr z => rw [h1] at h; exact absurd h (by simp [XRes.andThen])
  | panicked z => rw [h1] at h; exact absurd h (by simp [XRes.andThen])
  | ok z =>
    have hz : z.stack = x.stack ∧ z.ns_stack = x.ns_stack ∧
        z.«namespace» = x.«namespace» :=
      XRes.holds_ok (pres_close_elem
        (P := fun v => v.stack = x.stack ∧ v.ns_stack = x.ns_stack ∧
          v.«namespace» = x.«namespace»)
        (fun a w ha => ha) (fun a ha => ha) x ⟨rfl, rfl, rfl⟩) h1
    rw [h1] at h
    simp only [XRes.andThen] at h
    cases h2 : indent z with
    | ioErr z2 => rw [h2] at h; exact absurd h (by simp [XRes.andThen])
    | panicked z2 => rw [h2] at h; exact absurd h (by simp [XRes.andThen])
    | ok z2 =>
      have hz2 : z2.stack = x.stack ∧ z2.ns_stack = x.ns_stack ∧
          z2.«namespace» = x.«namespace» := by
        have h3 := XRes.holds_ok (pres_indent
          (P := fun v => v.stack = z.stack ∧ v.ns_stack = z.ns_stack ∧
            v.«namespace» = z.«namespace»)
          (fun a w ha => ha) z ⟨rfl, rfl, rfl⟩) h2
        exact ⟨h3.1.trans hz.1, h3.2.1.trans hz.2.1, h3.2.2.trans hz.2.2⟩
      rw [h2] at h
      simp only [XRes.andThen] at h
      have hQ0 : (name :: z2.stack = name :: x.stack) ∧
          (z2.«namespace» :: z2.ns_stack = x.«namespace» :: x.ns_stack) := by
        rw [hz2.1, hz2.2.1, hz2.2.2]
        exact ⟨rfl, rfl⟩
      have hWQ : ∀ (a : XmlWriter) (w : Sink),
          (a.stack = name :: x.stack ∧ a.ns_stack = x.«namespace» :: x.ns_stack) →
          (({ a with writer := w } : XmlWriter).stack = name :: x.stack ∧
            ({ a with writer := w } : XmlWriter).ns_stack = x.«namespace» :: x.ns_stack) :=
        fun a w ha => ha
      exact XRes.holds_ok
        (XRes.holds_bind
          (P := fun v => v.stack = name :: x.stack ∧
            v.ns_stack = x.«namespace» :: x.ns_stack)
          (f := fun w => write "<" w)
          (pres_write hWQ "<")
          (fun v hv => XRes.holds_bind
            (P := fun v => v.stack = name :: x.stack ∧
              v.ns_stack = x.«namespace» :: x.ns_stack)
            (f := fun v => ns_prefix v.«namespace» { v with opened := true })
            (fun u hu => ns_prefix_pres hWQ u.«namespace» { u with opened := true } hu)
            (pres_write hWQ name) v hv)
          _ hQ0) h

theorem end_elem_ok_stacks (x y : XmlWriter) (h : end_elem x = .ok y) :
    ∃ n ns, x.stack = n :: y.stack ∧ x.ns_stack = ns :: y.ns_stack := by
  unfold end_elem at h
  cases h1 : close_elem x with
  | ioErr z => rw [h1] at h; exact absurd h (by simp [XRes.andThen])
  | panicked z => rw [h1] at h; exact absurd h (by simp [XRes.andThen])
  | ok z =>
    have hz : z.stack = x.stack ∧ z.ns_stack = x.ns_stack :=
      XRes.holds_ok (pres_close_elem
        (P := fun v => v.stack = x.stack ∧ v.ns_stack = x.ns_stack)
        (fun a w ha => ha) (fun a ha => ha) x ⟨rfl, rfl⟩) h1
    rw [h1] at h
    simp only [XRes.andThen] at h
    cases hns : z.ns_stack with
    | nil => rw [hns] at h; exact absurd h (by simp)
    | cons ns nsR =>
      rw [hns] at h
      cases hst : z.stack with
      | nil => rw [hst] at h; simp only [] at h; exact absurd h (by simp)
      | cons n sR =>
        rw [hst] at h
        simp only [] at h
        have hWQ : ∀ (a : XmlWriter) (w : Sink),
            (a.stack = sR ∧ a.ns_stack = nsR) →
            (({ a with writer := w } : XmlWriter).stack = sR ∧
              ({ a with writer := w } : XmlWriter).ns_stack = nsR) :=
          fun a w ha => ha
        have hQ := XRes.holds_ok
          (XRes.holds_bind
            (P := fun v => v.stack = sR ∧ v.ns_stack = nsR)
            (f := fun w => write "</" w)
            (pres_write hWQ "</")
            (fun v hv => XRes.holds_bind
              (P := fun v => v.stack = sR ∧ v.ns_stack = nsR)
              (f := fun v => ns_prefix ns v)
              (fun u hu => ns_prefix_pres hWQ ns u hu)
              (fun u hu => by
                apply XRes.holds_bind
                  (P := fun v => v.stack = sR ∧ v.ns_stack = nsR)
                  (f := fun v => write n v)
                  (pres_write hWQ n)
                  (fun v2 hv2 => by
                    rw [ite_self]
                    exact pres_write hWQ ">" v2 hv2)
                  u hu) v hv)
            _ ⟨rfl, rfl⟩) h
        refine ⟨n, ns, ?_, ?_⟩
        · rw [← hz.1, hst, hQ.1]
        · rw [← hz.2, hns, hQ.2]

end XmlWriter

/-! ## The claimed properties -/

open XmlWriter in
/-- C1: starting from a fresh default writer (pretty mode on, no
namespace), the operation sequence begin_elem "OTDS", comment, begin_elem
"node", attr_esc, attr, text, end_elem, begin_elem "stuff", cdata, close
produces exactly the specified bytes, with the closing `</OTDS>` written
flush with no preceding newline or indentation. -/
theorem claim_C1 :
    ((((((((((begin_elem "OTDS" (new { chunks := [], budget := none })).andThen
      (comment "nice to see you")).andThen
      (begin_elem "node")).andThen
      (attr_esc "name" "\"123\"")).andThen
      (attr "id" "abc")).andThen
      (text "'text'")).andThen
      end_elem).andThen
      (begin_elem "stuff")).andThen
      (cdata "blablab")).andThen
      close).out =
    some "<OTDS>\n  <!-- nice to see you -->\n  <node name=\"&quot;123&quot;\" id=\"abc\">&apos;text&apos;</node>\n  <stuff><![CDATA[blablab]]></stuff></OTDS>" := by
  decide

/-- C2 counterexample: the input "&" contains the special character `&`,
and the escaped output "&amp;" still contains a literal `&` (the leading
ampersand of the entity), so "no literal occurrence of the original
special character" fails for `&`. -/
theorem claim_C2_counterexample :
    (Char.ofNat 38) ∈ ("&" : String).data ∧
    (Char.ofNat 38) ∈ (XmlWriter.escapeStr "&" false).data := by
  decide

/-- C2 (amended): for every input, (1) each special character in the
input puts its entity into the output; (2) the four characters `"`, `'`,
`<`, `>` never occur literally in the output; (3) every literal `&` in
the output is the start of one of the five entities; (4) non-identifier
mode never escapes backslash (backslash count preserved); (5) identifier
mode doubles every backslash; (6) all other characters are copied
through unchanged as one whole character (never split). -/
theorem claim_C2 (t : String) (ident : Bool) :
    (∀ c e, c ∈ t.data → XmlWriter.entityFor c = some e →
      e.data <:+: (XmlWriter.escapeStr t ident).data) ∧
    (∀ d, (d = Char.ofNat 34 ∨ d = Char.ofNat 39 ∨ d = Char.ofNat 60 ∨ d = Char.ofNat 62) →
      d ∉ (XmlWriter.escapeStr t ident).data) ∧
    (∀ u v, (XmlWriter.escapeStr t ident).data = u ++ (Char.ofNat 38) :: v →
      ∃ e ∈ XmlWriter.entityList, e.data <+: (Char.ofNat 38) :: v) ∧
    ((XmlWriter.escapeStr t false).data.count (Char.ofNat 92) =
      t.data.count (Char.ofNat 92)) ∧
    ((XmlWriter.escapeStr t true).data.count (Char.ofNat 92) =
      2 * t.data.count (Char.ofNat 92)) ∧
    (∀ c, XmlWriter.entityFor c = none → ¬(c = Char.ofNat 92 ∧ ident = true) →
      XmlWriter.escChar ident c = String.singleton c) := by
  refine ⟨?_, ?_, ?_, ?_, ?_, ?_⟩
  · intro c e hc he
    unfold XmlWriter.escapeStr
    rw [String.data_join]
    rw [← XmlWriter.escChar_entity ident c e he]
    exact List.infix_of_mem_flatten
      (List.mem_map_of_mem String.data (List.mem_map_of_mem _ hc))
  · intro d h4 hmem
    unfold XmlWriter.escapeStr at hmem
    rw [String.data_join] at hmem
    obtain ⟨sd, hsd, hdmem⟩ := List.mem_flatten.mp hmem
    obtain ⟨sc, hsc, rfl⟩ := List.mem_map.mp hsd
    obtain ⟨c, _, rfl⟩ := List.mem_map.mp hsc
    exact XmlWriter.four_not_mem_escChar ident c d hdmem h4
  · intro u v h
    unfold XmlWriter.escapeStr at h
    rw [String.data_join] at h
    refine XmlWriter.amp_split (t.data.map (XmlWriter.escChar ident)) ?_ u v h
    intro sc hsc hamp
    obtain ⟨c, _, rfl⟩ := List.mem_map.mp hsc
    exact XmlWriter.amp_mem_escChar ident c hamp
  · unfold XmlWriter.escapeStr
    rw [String.data_join]
    simpa using XmlWriter.escList_count false t.data
  · unfold XmlWriter.escapeStr
    rw [String.data_join]
    simpa using XmlWriter.escList_count true t.data
  · intro c hnone hbs
    exact XmlWriter.escChar_plain ident c hnone hbs

/-- C2 witness: concrete instances of the escaper properties. -/
theorem claim_C2_witness :
    ("&quot;".data <:+: (XmlWriter.escapeStr "a\"b" false).data) ∧
    ((Char.ofNat 60) ∉ (XmlWriter.escapeStr "a<b" false).data) ∧
    (XmlWriter.escapeStr "a\\b" false).data.count (Char.ofNat 92) =
      ("a\\b" : String).data.count (Char.ofNat 92) :=
  ⟨(claim_C2 "a\"b" false).1 (Char.ofNat 34) "&quot;" (by decide) (by decide),
   (claim_C2 "a<b" false).2.1 (Char.ofNat 60) (by decide),
   (claim_C2 "a\\b" false).2.2.2.1⟩

/-- C3 counterexample: on a fresh writer over a sink whose first write
fails, `begin_elem "a"` returns the I/O error but leaves the element
stack as `["a"]` (and the namespace stack as `[none]`) — not the empty
stacks the writer had when the operation was invoked, because the pushes
happen before the failing `<` write. -/
theorem claim_C3_counterexample :
    XmlWriter.begin_elem "a" (XmlWriter.new { chunks := [], budget := some 0 }) =
      .ioErr { stack := ["a"], ns_stack := [none],
               writer := { chunks := [], budget := some 0 },
               opened := false, pretty := true, «namespace» := none } ∧
    (XmlWriter.new { chunks := [], budget := some 0 }).stack = [] := by
  exact ⟨by decide, rfl⟩

/-- C3 (amended): a failing sink write surfaces immediately as a
recoverable I/O-error result with nothing further written (no retry),
and the writer's state is exactly the state just before the failing
write — which can differ from the state at operation entry: `begin_elem`
pushes both stacks before its first tag write, and `end_elem` pops both
stacks before writing the closing tag. -/
theorem claim_C3 :
    (∀ (name : String) (cs : List String),
      XmlWriter.begin_elem name (XmlWriter.new { chunks := cs, budget := some 0 }) =
        .ioErr { stack := [name], ns_stack := [none],
                 writer := { chunks := cs, budget := some 0 },
                 opened := false, pretty := true, «namespace» := none }) ∧
    (∀ (x : XmlWriter) (n : String) (sR : List String) (ns : Option String)
        (nsR : List (Option String)),
      x.opened = false → x.stack = n :: sR → x.ns_stack = ns :: nsR →
      x.writer.budget = some 0 →
      XmlWriter.end_elem x = .ioErr { x with stack := sR, ns_stack := nsR }) := by
  constructor
  · intro name cs
    rfl
  · intro x n sR ns nsR ho hs hn hb
    unfold XmlWriter.end_elem
    rw [show XmlWriter.close_elem x = .ok x from by
      unfold XmlWriter.close_elem
      rw [if_neg (by simp [ho])]]
    simp only [XRes.andThen, hn, hs]
    unfold XmlWriter.write
    simp only [hb]

/-- C3 witness: a concrete failed `end_elem` that has already popped
both stacks. -/
theorem claim_C3_witness :
    XmlWriter.end_elem
      { stack := ["n"], ns_stack := [none],
        writer := { chunks := [], budget := some 0 },
        opened := false, pretty := true, «namespace» := none } =
    XRes.ioErr
      { stack := [], ns_stack := [],
        writer := { chunks := [], budget := some 0 },
        opened := false, pretty := true, «namespace» := none } := by
  have h := claim_C3.2
    { stack := ["n"], ns_stack := [none], writer := { chunks := [], budget := some 0 },
      opened := false, pretty := true, «namespace» := none }
    "n" [] none [] rfl rfl rfl rfl
  exact h

/-- C4: `elem_text` under a current namespace prefix `p` writes the
opening tag with the prefix (`<p:name>`) but the closing tag without it
(`</name>`), producing mismatched tag names. -/
theorem claim_C4 (x : XmlWriter) (p name t : String)
    (h : x.writer.budget = none) (hp : x.«namespace» = some p) :
    XmlWriter.elem_text name t x =
      .ok { x with opened := false,
                   writer := { chunks := x.writer.chunks ++ XmlWriter.closeChunks x
                                 ++ XmlWriter.indentChunks x
                                 ++ ["<", p, ":", name, ">"]
                                 ++ t.data.map (XmlWriter.escChar false)
                                 ++ ["</", name, ">"],
                               budget := none } } := by
  rw [XmlWriter.elem_text_none name t x h, hp]
  simp [XmlWriter.nsChunks]

/-- C4 witness: a concrete namespaced `elem_text` whose opening tag is
`<st:n>` but whose closing tag is `</n>`. -/
theorem claim_C4_witness :
    (XmlWriter.elem_text "n" "h"
      { stack := [], ns_stack := [], writer := { chunks := [], budget := none },
        opened := false, pretty := true, «namespace» := some "st" }).out =
      some "<st:n>h</n>" := by
  rw [claim_C4 _ "st" "n" "h" rfl rfl]
  decide

/-- C5: an element opened by `begin_elem` while the namespace prefix is
`some p` is closed by `end_elem` with the same prefix `p`, no matter
what the current namespace `q` has been changed to in between. -/
theorem claim_C5 (x : XmlWriter) (p : String) (q : Option String) (name : String)
    (h : x.writer.budget = none) (hp : x.«namespace» = some p) :
    (XmlWriter.begin_elem name x).andThen
        (fun y => XmlWriter.end_elem { y with «namespace» := q }) =
      .ok { x with opened := false, «namespace» := q,
                   writer := { chunks := x.writer.chunks ++ XmlWriter.closeChunks x
                                 ++ XmlWriter.indentChunks x
                                 ++ ["<", p, ":", name, ">"]
                                 ++ ["</", p, ":", name, ">"],
                               budget := none } } := by
  rw [XmlWriter.begin_elem_none name x h, hp]
  simp only [XRes.andThen]
  rw [XmlWriter.end_elem_none _ name x.stack (some p) x.ns_stack rfl rfl rfl]
  simp [XmlWriter.nsChunks, XmlWriter.closeChunks]

/-- C5 witness: open under prefix `st`, clear the namespace, close —
the closing tag still carries `st`. -/
theorem claim_C5_witness :
    ((XmlWriter.begin_elem "a"
        { stack := [], ns_stack := [], writer := { chunks := [], budget := none },
          opened := false, pretty := true, «namespace» := some "st" }).andThen
      (fun y => XmlWriter.end_elem { y with «namespace» := none })).out =
      some "<st:a></st:a>" := by
  rw [claim_C5 _ "st" none "a" rfl rfl]
  decide

/-- C6: for every sequence of `begin_elem`/`end_elem` calls with no
mismatches, run from a fresh writer, a subsequent `close()` succeeds and
leaves both the element stack and the namespace stack empty; the closing
tags that appear in the output are exactly those of the canonical LIFO
(innermost-first) simulation, one per opening tag. (Names are required
not to be the literal chunk `</` so closing tags can be read back off
the chunk stream.) -/
theorem claim_C6 (ops : List XmlWriter.Op)
    (hops : ∀ op ∈ ops, op.isBeginEnd = true)
    (hnm : ∀ nm, XmlWriter.Op.begin_elem nm ∈ ops → nm ≠ "</")
    (hbal : XmlWriter.balancedFrom 0 ops = true) :
    ∃ y z : XmlWriter,
      XmlWriter.runOps ops (XmlWriter.new { chunks := [], budget := none }) = .ok y ∧
      XmlWriter.close y = .ok z ∧
      z.stack = [] ∧ z.ns_stack = [] ∧
      XmlWriter.closingNames z.writer.chunks =
        XmlWriter.simClosings ops [] ++ XmlWriter.simStack ops [] ∧
      (∀ nm, (XmlWriter.closingNames z.writer.chunks).count nm =
        ops.count (XmlWriter.Op.begin_elem nm)) := by
  obtain ⟨y, hrun, hst, hyns, hybud, hyrep, hystn, hyop, hynd, hycn⟩ :=
    XmlWriter.run_beginend ops (XmlWriter.new { chunks := [], budget := none })
      hops hnm hbal rfl rfl rfl (by simp [XmlWriter.new]) (by simp [XmlWriter.new])
      XmlWriter.noDangle_nil
  have hz := XmlWriter.closeLoop_none_any y.stack.length y hybud rfl
    (by rw [hyrep]; simp) hyop
  refine ⟨y, _, hrun, hz, rfl, rfl, ?_⟩
  have hcn : XmlWriter.closingNames
      (y.writer.chunks ++ ((if y.stack.length = 0 then []
          else XmlWriter.closeChunks y)
        ++ XmlWriter.closingChunks (y.stack.zip y.ns_stack))) =
      XmlWriter.simClosings ops [] ++ XmlWriter.simStack ops [] := by
    have hseg1 : XmlWriter.NoDangle (if y.stack.length = 0 then []
          else XmlWriter.closeChunks y) ∧
        XmlWriter.closingNames (if y.stack.length = 0 then []
          else XmlWriter.closeChunks y) = [] := by
      split_ifs
      · exact ⟨XmlWriter.noDangle_nil, rfl⟩
      · exact XmlWriter.noDangle_of_no_close _ (XmlWriter.no_close_closeChunks y)
    obtain ⟨hccnd, hcccn⟩ := XmlWriter.closingNames_closingChunks y.stack hystn
    rw [hynd, hseg1.1]
    rw [hseg1.2]
    rw [show y.ns_stack = List.replicate y.stack.length none from hyrep]
    rw [hcccn, hycn, hst]
    simp [XmlWriter.closingNames, XmlWriter.new]
  exact ⟨hcn, fun nm => by
    rw [hcn, XmlWriter.simCount ops [] hbal nm]
    simp⟩

/-- C6 witness: a concrete balanced sequence. -/
theorem claim_C6_witness :
    ∃ y z : XmlWriter,
      XmlWriter.runOps
        [XmlWriter.Op.begin_elem "a", XmlWriter.Op.begin_elem "b", XmlWriter.Op.end_elem]
        (XmlWriter.new { chunks := [], budget := none }) = .ok y ∧
      XmlWriter.close y = .ok z ∧
      z.stack = [] ∧ z.ns_stack = [] ∧
      XmlWriter.closingNames z.writer.chunks =
        XmlWriter.simClosings
          [XmlWriter.Op.begin_elem "a", XmlWriter.Op.begin_elem "b", XmlWriter.Op.end_elem] [] ++
        XmlWriter.simStack
          [XmlWriter.Op.begin_elem "a", XmlWriter.Op.begin_elem "b", XmlWriter.Op.end_elem] [] ∧
      (∀ nm, (XmlWriter.closingNames z.writer.chunks).count nm =
        [XmlWriter.Op.begin_elem "a", XmlWriter.Op.begin_elem "b",
          XmlWriter.Op.end_elem].count (XmlWriter.Op.begin_elem nm)) :=
  claim_C6 [XmlWriter.Op.begin_elem "a", XmlWriter.Op.begin_elem "b", XmlWriter.Op.end_elem]
    (by decide)
    (by
      intro nm h
      simp only [List.mem_cons, List.not_mem_nil, or_false,
        XmlWriter.Op.begin_elem.injEq, reduceCtorEq] at h
      rcases h with rfl | rfl <;> decide)
    (by decide)

/-- C7: `attr` and `attr_esc` raise the programmer-misuse fault exactly
when no start tag is open or the element stack is empty (on reachable
states these coincide); with an open start tag, `attr` writes exactly
` name="value"` raw and `attr_esc` the same shape with the name escaped
in identifier mode and the value escaped as text; in the fault case the
state (including the sink) is untouched — no stray attribute is
written. -/
theorem claim_C7 (x : XmlWriter) (hx : XmlWriter.Reachable x) (name value : String)
    (hb : x.writer.budget = none) :
    ((XmlWriter.attr name value x = .panicked x) ↔
      (x.opened = false ∨ x.stack = [])) ∧
    ((XmlWriter.attr_esc name value x = .panicked x) ↔
      (x.opened = false ∨ x.stack = [])) ∧
    (x.opened = true →
      XmlWriter.attr name value x =
        .ok { x with writer := { chunks := x.writer.chunks
                                   ++ [" ", name, "=\"", value, "\""],
                                 budget := none } } ∧
      XmlWriter.attr_esc name value x =
        .ok { x with writer := { chunks := x.writer.chunks
                                   ++ [" "] ++ name.data.map (XmlWriter.escChar true)
                                   ++ ["=\""] ++ value.data.map (XmlWriter.escChar false)
                                   ++ ["\""],
                                 budget := none } }) ∧
    (x.opened = false →
      XmlWriter.attr name value x = .panicked x ∧
      XmlWriter.attr_esc name value x = .panicked x) := by
  have hinv := XmlWriter.reachable_openInv x hx
  have hoOf : (x.opened = false ∨ x.stack = []) → x.opened = false := by
    intro hc
    rcases hc with ho | hs
    · exact ho
    · cases hoo : x.opened
      · rfl
      · exact absurd hs (hinv hoo)
  refine ⟨⟨?_, ?_⟩, ⟨?_, ?_⟩, ?_, ?_⟩
  · intro hp
    cases ho : x.opened
    · exact Or.inl rfl
    · rw [XmlWriter.attr_none name value x hb ho] at hp
      exact absurd hp (by simp)
  · intro hc
    exact XmlWriter.attr_panic name value x (hoOf hc)
  · intro hp
    cases ho : x.opened
    · exact Or.inl rfl
    · rw [XmlWriter.attr_esc_none name value x hb ho] at hp
      exact absurd hp (by simp)
  · intro hc
    exact XmlWriter.attr_esc_panic name value x (hoOf hc)
  · intro ho
    exact ⟨XmlWriter.attr_none name value x hb ho,
      XmlWriter.attr_esc_none name value x hb ho⟩
  · intro ho
    exact ⟨XmlWriter.attr_panic name value x ho,
      XmlWriter.attr_esc_panic name value x ho⟩

/-- C7 witness: calling `attr` immediately after `end_elem` (no element
open) on a reachable state raises the fault and leaves the state
untouched. -/
theorem claim_C7_witness :
    XmlWriter.attr "x" "y"
      { stack := [], ns_stack := [],
        writer := { chunks := ["<", "a", ">", "</", "a", ">"], budget := none },
        opened := false, pretty := true, «namespace» := none } =
    XRes.panicked
      { stack := [], ns_stack := [],
        writer := { chunks := ["<", "a", ">", "</", "a", ">"], budget := none },
        opened := false, pretty := true, «namespace» := none } := by
  have r1 : XmlWriter.Reachable
      { stack := ["a"], ns_stack := [none],
        writer := { chunks := ["<", "a"], budget := none },
        opened := true, pretty := true, «namespace» := none } :=
    XmlWriter.Reachable.step_ok _ _ (XmlWriter.Op.begin_elem "a")
      (XmlWriter.Reachable.fresh { chunks := [], budget := none }) (by decide)
  have r2 : XmlWriter.Reachable
      { stack := [], ns_stack := [],
        writer := { chunks := ["<", "a", ">", "</", "a", ">"], budget := none },
        opened := false, pretty := true, «namespace» := none } :=
    XmlWriter.Reachable.step_ok _ _ XmlWriter.Op.end_elem r1 (by decide)
  exact ((claim_C7 _ r2 "x" "y" rfl).2.2.2 rfl).1

/-- C8: with pretty-printing on, a `begin_elem` at depth d > 0 is
preceded by exactly one newline and 2 × d spaces; at depth 0 neither is
emitted; in particular `comment "comment"` on a fresh writer produces
exactly `<!-- comment -->` with no leading newline. -/
theorem claim_C8 (x : XmlWriter) (name : String)
    (h : x.writer.budget = none) (hp : x.pretty = true) :
    (x.stack.length > 0 →
      XmlWriter.begin_elem name x =
        .ok { x with stack := name :: x.stack,
                     ns_stack := x.«namespace» :: x.ns_stack,
                     opened := true,
                     writer := { chunks := x.writer.chunks ++ XmlWriter.closeChunks x
                                   ++ ("\n" :: List.replicate (2 * x.stack.length) " ")
                                   ++ ["<"] ++ XmlWriter.nsChunks x.«namespace» ++ [name],
                                 budget := none } }) ∧
    (x.stack.length = 0 →
      XmlWriter.begin_elem name x =
        .ok { x with stack := name :: x.stack,
                     ns_stack := x.«namespace» :: x.ns_stack,
                     opened := true,
                     writer := { chunks := x.writer.chunks ++ XmlWriter.closeChunks x
                                   ++ ["<"] ++ XmlWriter.nsChunks x.«namespace» ++ [name],
                                 budget := none } }) ∧
    (XmlWriter.comment "comment" (XmlWriter.new { chunks := [], budget := none })).out =
      some "<!-- comment -->" := by
  refine ⟨?_, ?_, by decide⟩
  · intro hd
    rw [XmlWriter.begin_elem_none name x h]
    rw [show XmlWriter.indentChunks x
        = "\n" :: List.replicate (2 * x.stack.length) " " from by
      unfold XmlWriter.indentChunks
      rw [if_pos hp, if_pos hd, Nat.mul_comm]]
  · intro hd
    rw [XmlWriter.begin_elem_none name x h]
    rw [show XmlWriter.indentChunks x = [] from by
      unfold XmlWriter.indentChunks
      rw [if_pos hp, if_neg (by omega)]]
    simp

/-- C8 witness: opening at depth 1 emits a newline and two spaces. -/
theorem claim_C8_witness :
    (XmlWriter.begin_elem "a"
      { stack := ["r"], ns_stack := [none],
        writer := { chunks := [], budget := none },
        opened := false, pretty := true, «namespace» := none }).out =
      some "\n  <a" := by
  rw [(claim_C8
    { stack := ["r"], ns_stack := [none],
      writer := { chunks := [], budget := none },
      opened := false, pretty := true, «namespace» := none }
    "a" rfl rfl).1 (by decide)]
  decide

/-- C9: whenever a start tag is open, `text`, `cdata` and `end_elem`
first terminate it by writing exactly one `>` before any further
content, and afterwards the open flag is false; the emitted chunk
sequences are exact, so the `>` is neither duplicated nor omitted. -/
theorem claim_C9 (x : XmlWriter) (h : x.writer.budget = none) (ho : x.opened = true) :
    (∀ t, XmlWriter.text t x =
      .ok { x with opened := false,
                   writer := { chunks := x.writer.chunks ++ [">"]
                                 ++ t.data.map (XmlWriter.escChar false),
                               budget := none } }) ∧
    (∀ c, XmlWriter.cdata c x =
      .ok { x with opened := false,
                   writer := { chunks := x.writer.chunks ++ [">"]
                                 ++ ["<![CDATA[", c, "]]>"],
                               budget := none } }) ∧
    (∀ n sR ns nsR, x.stack = n :: sR → x.ns_stack = ns :: nsR →
      XmlWriter.end_elem x =
        .ok { x with stack := sR, ns_stack := nsR, opened := false,
                     writer := { chunks := x.writer.chunks ++ [">"] ++ ["</"]
                                   ++ XmlWriter.nsChunks ns ++ [n, ">"],
                                 budget := none } }) := by
  refine ⟨?_, ?_, ?_⟩
  · intro t
    rw [XmlWriter.text_none t x h]
    simp [XmlWriter.closeChunks, ho]
  · intro c
    rw [XmlWriter.cdata_none c x h]
    simp [XmlWriter.closeChunks, ho]
  · intro n sR ns nsR hs hn
    rw [XmlWriter.end_elem_none x n sR ns nsR h hs hn]
    simp [XmlWriter.closeChunks, ho]

/-- C9 witness: text after an open tag emits one `>` then the text. -/
theorem claim_C9_witness :
    (XmlWriter.text "hi"
      { stack := ["a"], ns_stack := [none],
        writer := { chunks := ["<", "a"], budget := none },
        opened := true, pretty := true, «namespace» := none }).out =
      some "<a>hi" := by
  rw [(claim_C9
    { stack := ["a"], ns_stack := [none],
      writer := { chunks := ["<", "a"], budget := none },
      opened := true, pretty := true, «namespace» := none }
    rfl rfl).1 "hi"]
  decide

/-- C10: from any state with equally long element and namespace stacks,
every public operation — whether it succeeds or returns an I/O error —
leaves the two stacks equally long; a successful `begin_elem` pushes one
entry onto both, a successful `end_elem` pops one entry from both, and
the operations other than `begin_elem`/`end_elem`/`close` (the latter
being iterated `end_elem`) never change either stack, in success or
I/O-error outcomes alike. -/
theorem claim_C10 (x : XmlWriter) (hbal : x.stack.length = x.ns_stack.length) :
    (∀ op : XmlWriter.Op, (XmlWriter.Op.apply op x).Holds
      (fun y => y.stack.length = y.ns_stack.length)) ∧
    (∀ name y, XmlWriter.begin_elem name x = .ok y →
      y.stack = name :: x.stack ∧ y.ns_stack = x.«namespace» :: x.ns_stack) ∧
    (∀ y, XmlWriter.end_elem x = .ok y →
      ∃ n ns, x.stack = n :: y.stack ∧ x.ns_stack = ns :: y.ns_stack) ∧
    (∀ op : XmlWriter.Op, op.touchesStack = false →
      (XmlWriter.Op.apply op x).Holds
        (fun y => y.stack = x.stack ∧ y.ns_stack = x.ns_stack)) := by
  refine ⟨?_, ?_, ?_, ?_⟩
  · intro op
    exact XmlWriter.pres_op
      (fun a w ha => ha) (fun a ha => ha)
      (fun a n ns ha => by simpa using ha)
      (fun a ha _ => ha)
      (fun a n sR ns nsR ha _ hs hn => by
        rw [hs, hn] at ha
        simpa using ha)
      op x hbal
  · exact fun name y h => XmlWriter.begin_elem_ok_stacks name x y h
  · exact fun y h => XmlWriter.end_elem_ok_stacks x y h
  · intro op hop
    have hW : ∀ (a : XmlWriter) (w : Sink),
        (a.stack = x.stack ∧ a.ns_stack = x.ns_stack) →
        (({ a with writer := w } : XmlWriter).stack = x.stack ∧
          ({ a with writer := w } : XmlWriter).ns_stack = x.ns_stack) :=
      fun a w ha => ha
    have hC : ∀ (a : XmlWriter),
        (a.stack = x.stack ∧ a.ns_stack = x.ns_stack) →
        (({ a with opened := false } : XmlWriter).stack = x.stack ∧
          ({ a with opened := false } : XmlWriter).ns_stack = x.ns_stack) :=
      fun a ha => ha
    cases op with
    | begin_elem name => exact absurd hop (by simp [XmlWriter.Op.touchesStack])
    | end_elem => exact absurd hop (by simp [XmlWriter.Op.touchesStack])
    | close => exact absurd hop (by simp [XmlWriter.Op.touchesStack])
    | dtd encoding => exact XmlWriter.pres_dtd hW encoding x ⟨rfl, rfl⟩
    | ns_decl nsMap => exact XmlWriter.pres_ns_decl hW nsMap x ⟨rfl, rfl⟩
    | elem name => exact XmlWriter.pres_elem hW hC name x ⟨rfl, rfl⟩
    | elem_text name t => exact XmlWriter.pres_elem_text hW hC name t x ⟨rfl, rfl⟩
    | empty_elem name => exact XmlWriter.pres_empty_elem hW hC name x ⟨rfl, rfl⟩
    | attr name value => exact XmlWriter.pres_attr hW name value x ⟨rfl, rfl⟩
    | attr_esc name value => exact XmlWriter.pres_attr_esc hW name value x ⟨rfl, rfl⟩
    | text t => exact XmlWriter.pres_text hW hC t x ⟨rfl, rfl⟩
    | write t => exact XmlWriter.pres_write hW t x ⟨rfl, rfl⟩
    | cdata c => exact XmlWriter.pres_cdata hW hC c x ⟨rfl, rfl⟩
    | comment c => exact XmlWriter.pres_comment hW hC c x ⟨rfl, rfl⟩
    | flush => exact XmlWriter.pres_flush x ⟨rfl, rfl⟩

/-- C10 witness: the length invariant through a concrete `begin_elem`. -/
theorem claim_C10_witness :
    (XmlWriter.Op.apply (XmlWriter.Op.begin_elem "a")
      (XmlWriter.new { chunks := [], budget := none })).Holds
      (fun y => y.stack.length = y.ns_stack.length) :=
  (claim_C10 (XmlWriter.new { chunks := [], budget := none }) rfl).1
    (XmlWriter.Op.begin_elem "a")
